import Mathlib

/-!
Shallow embedding of the search / caching / statistics subsystem of the
Telegram chat-analytics bot (models `Message`, `User`, `RedisService`,
`stats.ts` / `search.ts` handlers and the `get_user_stats` SQL function).

Modelling conventions:
* strings are lists of characters (`List Char`);
* timestamps are integers counted in seconds (`INTERVAL '1 day'` = 86400);
* SQL `NULL` and JS `null`/`undefined` are `Option`;
* the PostgreSQL data set is a `Db` value (a list of users and messages);
  `users.id` is a primary key and query ordering ties are resolved
  deterministically by a stable insertion sort, matching one admissible
  ordering of `ORDER BY ... DESC`;
* the regular-expression dialect shared by PostgreSQL `~` and JS `RegExp`
  is embedded as the `Regex` type below: literals, `.`, escapes,
  character classes (with ranges and negation), grouping, alternation and
  the `*`/`+`/`?` quantifiers.  Anchors, bounded repetition and class
  shorthands are outside the modelled fragment; the queries exercised by
  the specification stay inside it.  Case folding is `Char.toLower`.
-/

namespace ChatBot

/-- Case folding used for all case-insensitive comparisons. -/
def lc (c : Char) : Char := c.toLower

/-- Case folding of a whole string. -/
def lstr (s : List Char) : List Char := s.map lc

/-- One item of a regex character class: a single character or a range. -/
inductive ClsItem where
  | single (c : Char)
  | range (lo hi : Char)
deriving DecidableEq, Repr

/-- Abstract syntax of the embedded regular-expression fragment. -/
inductive Regex where
  | emp
  | eps
  | chr (c : Char)
  | dot
  | cls (neg : Bool) (items : List ClsItem)
  | alt (r1 r2 : Regex)
  | cat (r1 r2 : Regex)
  | star (r : Regex)
  | group (r : Regex)
deriving DecidableEq, Repr

/-- Character equality, optionally case-insensitive. -/
def chEq (ci : Bool) (d c : Char) : Bool :=
  if ci then lc d == lc c else d == c

/-- Does one class item match a character? -/
def clsItemMatch (ci : Bool) (it : ClsItem) (c : Char) : Bool :=
  match it with
  | .single d => chEq ci d c
  | .range lo hi =>
      decide (lo ≤ c ∧ c ≤ hi) ||
        (ci && (decide (lo ≤ c.toLower ∧ c.toLower ≤ hi) ||
                decide (lo ≤ c.toUpper ∧ c.toUpper ≤ hi)))

/-- Does a (possibly negated) character class match a character? -/
def clsMatch (ci : Bool) (neg : Bool) (items : List ClsItem) (c : Char) : Bool :=
  let m := items.any (fun it => clsItemMatch ci it c)
  if neg then !m else m

/-- Nullability: does the regex accept the empty string? -/
def nullable : Regex → Bool
  | .emp => false
  | .eps => true
  | .chr _ => false
  | .dot => false
  | .cls _ _ => false
  | .alt a b => nullable a || nullable b
  | .cat a b => nullable a && nullable b
  | .star _ => true
  | .group r => nullable r

/-- Brzozowski derivative of a regex by one character. -/
def derivC (ci : Bool) : Regex → Char → Regex
  | .emp, _ => .emp
  | .eps, _ => .emp
  | .chr d, c => if chEq ci d c then .eps else .emp
  | .dot, _ => .eps
  | .cls neg items, c => if clsMatch ci neg items c then .eps else .emp
  | .alt a b, c => .alt (derivC ci a c) (derivC ci b c)
  | .cat a b, c =>
      if nullable a then .alt (.cat (derivC ci a c) b) (derivC ci b c)
      else .cat (derivC ci a c) b
  | .star r, c => .cat (derivC ci r c) (.star r)
  | .group r, c => derivC ci r c

/-- Declarative language semantics of the regex fragment. -/
inductive RMatch (ci : Bool) : Regex → List Char → Prop where
  | eps : RMatch ci .eps []
  | chr {d c : Char} : chEq ci d c = true → RMatch ci (.chr d) [c]
  | dot (c : Char) : RMatch ci .dot [c]
  | cls {neg : Bool} {items : List ClsItem} {c : Char} :
      clsMatch ci neg items c = true → RMatch ci (.cls neg items) [c]
  | altL {r1 r2 : Regex} {s : List Char} :
      RMatch ci r1 s → RMatch ci (.alt r1 r2) s
  | altR {r1 r2 : Regex} {s : List Char} :
      RMatch ci r2 s → RMatch ci (.alt r1 r2) s
  | cat {r1 r2 : Regex} {s1 s2 : List Char} :
      RMatch ci r1 s1 → RMatch ci r2 s2 → RMatch ci (.cat r1 r2) (s1 ++ s2)
  | starNil {r : Regex} : RMatch ci (.star r) []
  | starCons {r : Regex} {c : Char} {s1 s2 : List Char} :
      RMatch ci r (c :: s1) → RMatch ci (.star r) s2 →
      RMatch ci (.star r) (c :: s1 ++ s2)
  | group {r : Regex} {s : List Char} :
      RMatch ci r s → RMatch ci (.group r) s

/-- Parse the items of a character class, up to the closing bracket. -/
def parseClsItems : List Char → Option (List ClsItem × List Char)
  | [] => none
  | ']' :: rest => some ([], rest)
  | '\\' :: c :: rest =>
      match parseClsItems rest with
      | some (items, s) => some (.single c :: items, s)
      | none => none
  | c :: '-' :: d :: rest =>
      if d = ']' then some ([.single c, .single '-'], rest)
      else
        match parseClsItems rest with
        | some (items, s) => some (.range c d :: items, s)
        | none => none
  | c :: rest =>
      match parseClsItems rest with
      | some (items, s) => some (.single c :: items, s)
      | none => none

mutual

/-- Parse an alternation (`|`-separated sequence). Fuel-driven recursive
descent; `parseRegex` supplies ample fuel. -/
def parseAlt : Nat → List Char → Option (Regex × List Char)
  | 0, _ => none
  | fuel + 1, s =>
      (parseSeq fuel s).bind (fun p =>
        if p.2.head? = some '|' then
          (parseAlt fuel p.2.tail).map (fun q => (.alt p.1 q.1, q.2))
        else some p)

/-- Parse a concatenation of quantified atoms. -/
def parseSeq : Nat → List Char → Option (Regex × List Char)
  | 0, _ => none
  | fuel + 1, s => parseSeqLoop fuel .eps s

/-- Concatenation loop, accumulating to the left as the parser advances. -/
def parseSeqLoop : Nat → Regex → List Char → Option (Regex × List Char)
  | 0, _, _ => none
  | fuel + 1, acc, s =>
      match s with
      | [] => some (acc, [])
      | c :: rest =>
          if c = ')' ∨ c = '|' then some (acc, c :: rest)
          else
            (parseAtom fuel (c :: rest)).bind (fun p =>
              if p.2.head? = some '*' then
                parseSeqLoop fuel (.cat acc (.star p.1)) p.2.tail
              else if p.2.head? = some '+' then
                parseSeqLoop fuel (.cat acc (.cat p.1 (.star p.1))) p.2.tail
              else if p.2.head? = some '?' then
                parseSeqLoop fuel (.cat acc (.alt p.1 .eps)) p.2.tail
              else parseSeqLoop fuel (.cat acc p.1) p.2)

/-- Parse a single atom: group, class, escape, dot or literal character.
A quantifier with nothing to repeat, an unclosed group or class, and a
dangling escape are rejected, as in both engines the source relies on. -/
def parseAtom : Nat → List Char → Option (Regex × List Char)
  | 0, _ => none
  | _ + 1, [] => none
  | fuel + 1, c :: rest =>
      if c = '(' then
        (parseAlt fuel rest).bind (fun p =>
          if p.2.head? = some ')' then some (.group p.1, p.2.tail) else none)
      else if c = '[' then
        if rest.head? = some '^' then
          (parseClsItems rest.tail).map (fun p => (.cls true p.1, p.2))
        else
          (parseClsItems rest).map (fun p => (.cls false p.1, p.2))
      else if c = '\\' then
        rest.head?.map (fun d => (.chr d, rest.tail))
      else if c = '.' then some (.dot, rest)
      else if c = ')' ∨ c = '|' ∨ c = '*' ∨ c = '+' ∨ c = '?' then none
      else some (.chr c, rest)

end

/-- Compile a pattern string to a regex; `none` models the
`invalid regular expression` failure of both PostgreSQL and JS. -/
def parseRegex (p : List Char) : Option Regex :=
  match parseAlt (2 * p.length + 16) p with
  | some (r, []) => some r
  | _ => none

/-- Is there a match of `r` starting at the beginning of `s`? -/
def hasPrefixMatch (ci : Bool) (r : Regex) : List Char → Bool
  | [] => nullable r
  | c :: rest => nullable r || hasPrefixMatch ci (derivC ci r c) rest

/-- Is there a match of `r` anywhere inside `s`?  This is the semantics of
an (unanchored) PostgreSQL `text ~ pattern` / JS `RegExp.test`. -/
def existsMatch (ci : Bool) (r : Regex) : List Char → Bool
  | [] => nullable r
  | c :: rest => hasPrefixMatch ci r (c :: rest) || existsMatch ci r rest

/-- Length of the longest match of `r` at the beginning of `s`
(`maxMunchAux ci r s idx = some (idx + length)`), `none` if no prefix
matches. -/
def maxMunchAux (ci : Bool) (r : Regex) : List Char → Nat → Option Nat
  | [], idx => if nullable r then some idx else none
  | c :: rest, idx =>
      match maxMunchAux ci (derivC ci r c) rest (idx + 1) with
      | some j => some j
      | none => if nullable r then some idx else none

/-- Longest match of `r` at the beginning of `s`. -/
def maxMunch (ci : Bool) (r : Regex) (s : List Char) : Option Nat :=
  maxMunchAux ci r s 0

theorem nullable_of_match {ci : Bool} {r : Regex} {s : List Char}
    (h : RMatch ci r s) (hs : s = []) : nullable r = true := by
  induction h with
  | eps => rfl
  | chr _ => simp at hs
  | dot _ => simp at hs
  | cls _ => simp at hs
  | altL _ ih => simp [nullable, ih hs]
  | altR _ ih => simp [nullable, ih hs]
  | cat _ _ ih1 ih2 =>
      rcases List.append_eq_nil.mp hs with ⟨h1, h2⟩
      simp [nullable, ih1 h1, ih2 h2]
  | starNil => rfl
  | starCons _ _ _ _ => simp at hs
  | group _ ih => simpa [nullable] using ih hs

theorem match_nil_of_nullable {ci : Bool} : ∀ {r : Regex},
    nullable r = true → RMatch ci r [] := by
  intro r
  induction r with
  | emp => intro h; simp [nullable] at h
  | eps => intro _; exact .eps
  | chr c => intro h; simp [nullable] at h
  | dot => intro h; simp [nullable] at h
  | cls neg items => intro h; simp [nullable] at h
  | alt a b iha ihb =>
      intro h
      rcases Bool.or_eq_true _ _ |>.mp h with h1 | h2
      · exact .altL (iha h1)
      · exact .altR (ihb h2)
  | cat a b iha ihb =>
      intro h
      rcases Bool.and_eq_true _ _ |>.mp h with ⟨h1, h2⟩
      exact RMatch.cat (iha h1) (ihb h2)
  | star r ih => intro _; exact .starNil
  | group r ih => intro h; exact .group (ih h)

theorem deriv_sound {ci : Bool} {c : Char} : ∀ {r : Regex} {s : List Char},
    RMatch ci (derivC ci r c) s → RMatch ci r (c :: s) := by
  intro r
  induction r with
  | emp => intro s h; simp only [derivC] at h; cases h
  | eps => intro s h; simp only [derivC] at h; cases h
  | chr d =>
      intro s h
      simp only [derivC] at h
      split at h
      · cases h; exact .chr (by assumption)
      · cases h
  | dot =>
      intro s h
      simp only [derivC] at h
      cases h
      exact .dot c
  | cls neg items =>
      intro s h
      simp only [derivC] at h
      split at h
      · cases h; exact .cls (by assumption)
      · cases h
  | alt a b iha ihb =>
      intro s h
      simp only [derivC] at h
      cases h with
      | altL h1 => exact .altL (iha h1)
      | altR h2 => exact .altR (ihb h2)
  | cat a b iha ihb =>
      intro s h
      simp only [derivC] at h
      split at h
      · cases h with
        | altL h1 =>
            cases h1 with
            | cat h2 h3 =>
                have := RMatch.cat (iha h2) h3
                simpa using this
        | altR h2 =>
            have ha : RMatch ci a [] := match_nil_of_nullable (by assumption)
            have := RMatch.cat ha (ihb h2)
            simpa using this
      · cases h with
        | cat h2 h3 =>
            have := RMatch.cat (iha h2) h3
            simpa using this
  | star r ih =>
      intro s h
      simp only [derivC] at h
      cases h with
      | cat h1 h2 => exact RMatch.starCons (ih h1) h2
  | group r ih =>
      intro s h
      simp only [derivC] at h
      exact .group (ih h)

theorem deriv_complete {ci : Bool} {c : Char} : ∀ {r : Regex} {s : List Char},
    RMatch ci r (c :: s) → RMatch ci (derivC ci r c) s := by
  intro r
  induction r with
  | emp => intro s h; cases h
  | eps => intro s h; cases h
  | chr d =>
      intro s h
      cases h with
      | chr hc => simp only [derivC, hc, if_true]; exact .eps
  | dot =>
      intro s h
      cases h
      simp only [derivC]
      exact .eps
  | cls neg items =>
      intro s h
      cases h with
      | cls hc => simp only [derivC, hc, if_true]; exact .eps
  | alt a b iha ihb =>
      intro s h
      simp only [derivC]
      cases h with
      | altL h1 => exact .altL (iha h1)
      | altR h2 => exact .altR (ihb h2)
  | cat a b iha ihb =>
      intro s h
      generalize hx : c :: s = x at h
      cases h with
      | cat h1 h2 =>
          rename_i s1 s2
          cases s1 with
          | nil =>
              have hn : nullable a = true := nullable_of_match h1 rfl
              simp only [List.nil_append] at hx
              subst hx
              simp only [derivC, hn, if_true]
              exact .altR (ihb h2)
          | cons c1 s1t =>
              simp only [List.cons_append, List.cons.injEq] at hx
              obtain ⟨rfl, hs⟩ := hx
              subst hs
              have hd := iha h1
              simp only [derivC]
              split
              · exact .altL (RMatch.cat hd h2)
              · exact RMatch.cat hd h2
  | star r ih =>
      intro s h
      generalize hx : c :: s = x at h
      cases h with
      | starNil => simp at hx
      | starCons h1 h2 =>
          rename_i c1 s1 s2
          simp only [List.cons_append, List.cons.injEq] at hx
          obtain ⟨rfl, hs⟩ := hx
          subst hs
          simp only [derivC]
          exact RMatch.cat (ih h1) h2
  | group r ih =>
      intro s h
      cases h with
      | group h1 => simpa only [derivC] using ih h1

theorem hasPrefixMatch_iff {ci : Bool} : ∀ {s : List Char} {r : Regex},
    hasPrefixMatch ci r s = true ↔ ∃ p, p <+: s ∧ RMatch ci r p := by
  intro s
  induction s with
  | nil =>
      intro r
      simp only [hasPrefixMatch]
      constructor
      · intro h
        exact ⟨[], List.nil_prefix, match_nil_of_nullable h⟩
      · rintro ⟨p, hp, hm⟩
        have : p = [] := List.prefix_nil.mp hp
        subst this
        exact nullable_of_match hm rfl
  | cons c rest ih =>
      intro r
      simp only [hasPrefixMatch, Bool.or_eq_true]
      constructor
      · rintro (h | h)
        · exact ⟨[], List.nil_prefix, match_nil_of_nullable h⟩
        · obtain ⟨p, hp, hm⟩ := ih.mp h
          exact ⟨c :: p, by simpa [List.cons_prefix_cons] using hp, deriv_sound hm⟩
      · rintro ⟨p, hp, hm⟩
        cases p with
        | nil => exact Or.inl (nullable_of_match hm rfl)
        | cons d p' =>
            rw [List.cons_prefix_cons] at hp
            obtain ⟨rfl, hp'⟩ := hp
            exact Or.inr (ih.mpr ⟨p', hp', deriv_complete hm⟩)

theorem isInfixConsExtend {α : Type} {l₁ l₂ : List α} (a : α)
    (h : l₁ <:+: l₂) : l₁ <:+: a :: l₂ := by
  obtain ⟨u, v, rfl⟩ := h
  exact ⟨a :: u, v, rfl⟩

theorem infix_iff_suffix_part {α : Type} {p s : List α} :
    p <:+: s ↔ ∃ t, t <:+ s ∧ p <+: t := by
  constructor
  · rintro ⟨u, v, rfl⟩
    exact ⟨p ++ v, ⟨u, by simp⟩, ⟨v, rfl⟩⟩
  · rintro ⟨t, ⟨u, rfl⟩, ⟨v, rfl⟩⟩
    exact ⟨u, v, by simp⟩

theorem existsMatch_iff {ci : Bool} {r : Regex} : ∀ {s : List Char},
    existsMatch ci r s = true ↔ ∃ m, m <:+: s ∧ RMatch ci r m := by
  intro s
  induction s with
  | nil =>
      simp only [existsMatch]
      constructor
      · intro h
        exact ⟨[], ⟨[], [], rfl⟩, match_nil_of_nullable h⟩
      · rintro ⟨m, hm, hmm⟩
        have : m = [] := by
          obtain ⟨u, v, huv⟩ := hm
          rcases List.append_eq_nil.mp huv with ⟨h1, _⟩
          exact (List.append_eq_nil.mp h1).2
        subst this
        exact nullable_of_match hmm rfl
  | cons c rest ih =>
      simp only [existsMatch, Bool.or_eq_true]
      constructor
      · rintro (h | h)
        · obtain ⟨p, hp, hm⟩ := hasPrefixMatch_iff.mp h
          exact ⟨p, hp.isInfix, hm⟩
        · obtain ⟨m, hm, hmm⟩ := ih.mp h
          exact ⟨m, isInfixConsExtend c hm, hmm⟩
      · rintro ⟨m, hm, hmm⟩
        obtain ⟨t, ht, hpt⟩ := infix_iff_suffix_part.mp hm
        obtain ⟨u, hu⟩ := ht
        cases u with
        | nil =>
            simp only [List.nil_append] at hu
            subst hu
            exact Or.inl (hasPrefixMatch_iff.mpr ⟨m, hpt, hmm⟩)
        | cons a u' =>
            simp only [List.cons_append, List.cons.injEq] at hu
            obtain ⟨rfl, hu'⟩ := hu
            exact Or.inr (ih.mpr ⟨m, infix_iff_suffix_part.mpr ⟨t, ⟨u', hu'⟩, hpt⟩, hmm⟩)

theorem munch_sound {ci : Bool} : ∀ {s : List Char} {r : Regex} {idx j : Nat},
    maxMunchAux ci r s idx = some j →
    idx ≤ j ∧ j - idx ≤ s.length ∧ RMatch ci r (s.take (j - idx)) := by
  intro s
  induction s with
  | nil =>
      intro r idx j h
      simp only [maxMunchAux] at h
      split at h
      · cases h
        exact ⟨Nat.le_refl _, by simp, by simpa using match_nil_of_nullable (by assumption)⟩
      · cases h
  | cons c rest ih =>
      intro r idx j h
      cases hrec : maxMunchAux ci (derivC ci r c) rest (idx + 1) with
      | some j2 =>
          simp only [maxMunchAux, hrec, Option.some.injEq] at h
          subst h
          obtain ⟨h1, h2, h3⟩ := ih hrec
          refine ⟨by omega, by simp only [List.length_cons]; omega, ?_⟩
          have hj : j2 - idx = (j2 - (idx + 1)) + 1 := by omega
          rw [hj, List.take_succ_cons]
          exact deriv_sound h3
      | none =>
          simp only [maxMunchAux, hrec] at h
          split at h
          · simp only [Option.some.injEq] at h
            subst h
            refine ⟨Nat.le_refl _, by simp, ?_⟩
            simpa using match_nil_of_nullable (by assumption)
          · cases h

theorem munch_complete {ci : Bool} : ∀ {s : List Char} {r : Regex} {idx l : Nat},
    l ≤ s.length → RMatch ci r (s.take l) → (maxMunchAux ci r s idx).isSome := by
  intro s
  induction s with
  | nil =>
      intro r idx l hl hm
      simp only [List.length_nil, Nat.le_zero] at hl
      subst hl
      simp only [List.take_nil] at hm
      simp [maxMunchAux, nullable_of_match hm rfl]
  | cons c rest ih =>
      intro r idx l hl hm
      cases l with
      | zero =>
          simp only [List.take_zero] at hm
          have hn := nullable_of_match hm rfl
          cases hrec : maxMunchAux ci (derivC ci r c) rest (idx + 1) with
          | some j => simp [maxMunchAux, hrec]
          | none => simp [maxMunchAux, hrec, hn]
      | succ l' =>
          simp only [List.take_succ_cons] at hm
          have hd := deriv_complete hm
          have hl' : l' ≤ rest.length := by simpa using hl
          have hsome := @ih (derivC ci r c) (idx + 1) l' hl' hd
          cases hrec : maxMunchAux ci (derivC ci r c) rest (idx + 1) with
          | some j => simp [maxMunchAux, hrec]
          | none => rw [hrec] at hsome; simp at hsome

/-- The character set escaped by `Message.escapeRegExp`
(the JS class `[.*+?^$\x7b\x7d()|[\]\\]`). -/
def isMetaChar (c : Char) : Bool :=
  decide (c = '.' ∨ c = '*' ∨ c = '+' ∨ c = '?' ∨ c = '^' ∨ c = '$' ∨
    c = Char.ofNat 123 ∨ c = Char.ofNat 125 ∨ c = '(' ∨ c = ')' ∨
    c = '|' ∨ c = '[' ∨ c = ']' ∨ c = '\\')

/-- One character of `escapeRegExp`'s output: `\\$&` for special characters,
the character itself otherwise. -/
def escChar (c : Char) : List Char :=
  if isMetaChar c then ['\\', c] else [c]

/-- `Message.escapeRegExp`: escape regex pattern-control characters so the
resulting pattern matches the input string literally. -/
def escapeRegExp : List Char → List Char
  | [] => []
  | c :: s => escChar c ++ escapeRegExp s

/-- Left-accumulating literal concatenation, the shape produced by the
parser for a sequence of literal characters. -/
def catLit (acc : Regex) : List Char → Regex
  | [] => acc
  | c :: w => catLit (Regex.cat acc (.chr c)) w

/-- The regex produced by parsing `'(' ++ escapeRegExp w ++ ')'`, the exact
pattern `highlightText` compiles for a literal search term `w`. -/
def wordRegexOf (w : List Char) : Regex :=
  .cat .eps (.group (catLit .eps w))

/-- Right-nested literal word regex (semantic reference shape). -/
def litRegex : List Char → Regex
  | [] => .eps
  | c :: w => .cat (.chr c) (litRegex w)

theorem not_meta_facts {c : Char} (h : isMetaChar c = false) :
    c ≠ '.' ∧ c ≠ '*' ∧ c ≠ '+' ∧ c ≠ '?' ∧ c ≠ '(' ∧ c ≠ ')' ∧ c ≠ '|' ∧
    c ≠ '[' ∧ c ≠ ']' ∧ c ≠ '\\' := by
  simp only [isMetaChar, decide_eq_false_iff_not] at h
  push_neg at h
  exact ⟨h.1, h.2.1, h.2.2.1, h.2.2.2.1, h.2.2.2.2.2.2.2.2.1,
    h.2.2.2.2.2.2.2.2.2.1, h.2.2.2.2.2.2.2.2.2.2.1,
    h.2.2.2.2.2.2.2.2.2.2.2.1, h.2.2.2.2.2.2.2.2.2.2.2.2.1,
    h.2.2.2.2.2.2.2.2.2.2.2.2.2⟩

theorem parseAtom_escaped (g : Nat) (c : Char) (rest : List Char) :
    parseAtom (g + 1) ('\\' :: c :: rest) = some (.chr c, rest) := by
  rw [parseAtom]
  rw [if_neg (by decide), if_neg (by decide), if_pos rfl]
  simp

theorem parseAtom_plain (g : Nat) (c : Char) (rest : List Char)
    (hm : isMetaChar c = false) :
    parseAtom (g + 1) (c :: rest) = some (.chr c, rest) := by
  obtain ⟨hdot, hstar, hplus, hq, hop, hcp, hbar, hob, _, hbs⟩ := not_meta_facts hm
  rw [parseAtom]
  rw [if_neg hop, if_neg hob, if_neg hbs, if_neg hdot, if_neg (by tauto)]

theorem escape_head_not_quant (w : List Char) (tail : List Char) :
    (escapeRegExp w ++ ')' :: tail).head? ≠ some '*' ∧
    (escapeRegExp w ++ ')' :: tail).head? ≠ some '+' ∧
    (escapeRegExp w ++ ')' :: tail).head? ≠ some '?' := by
  cases w with
  | nil => simp [escapeRegExp]
  | cons c w2 =>
      by_cases hm : isMetaChar c = true
      · simp [escapeRegExp, escChar, hm]
      · have hm2 : isMetaChar c = false := by simpa using hm
        obtain ⟨_, hstar, hplus, hq, _⟩ := not_meta_facts hm2
        simp [escapeRegExp, escChar, hm2, hstar, hplus, hq]

theorem parseSeqLoop_escape (w : List Char) : ∀ (fuel : Nat) (acc : Regex)
    (tail : List Char), w.length + 1 ≤ fuel →
    parseSeqLoop fuel acc (escapeRegExp w ++ ')' :: tail) =
      some (catLit acc w, ')' :: tail) := by
  induction w with
  | nil =>
      intro fuel acc tail hf
      cases fuel with
      | zero => omega
      | succ f => simp [escapeRegExp, parseSeqLoop, catLit]
  | cons c w2 ih =>
      intro fuel acc tail hf
      cases fuel with
      | zero => simp at hf
      | succ f =>
          have hf2 : w2.length + 1 ≤ f := by
            simp only [List.length_cons] at hf; omega
          cases f with
          | zero => simp at hf2
          | succ g =>
          obtain ⟨hq1, hq2, hq3⟩ := escape_head_not_quant w2 tail
          by_cases hm : isMetaChar c = true
          · -- escaped character `\c`
            have hesc : escapeRegExp (c :: w2) ++ ')' :: tail =
                '\\' :: c :: (escapeRegExp w2 ++ ')' :: tail) := by
              simp [escapeRegExp, escChar, hm]
            rw [hesc, parseSeqLoop, if_neg (by decide),
              parseAtom_escaped g c (escapeRegExp w2 ++ ')' :: tail)]
            simp only [Option.some_bind]
            rw [if_neg hq1, if_neg hq2, if_neg hq3]
            have := ih (g + 1) (Regex.cat acc (.chr c)) tail (by omega)
            simpa [catLit] using this
          · -- plain character
            have hm2 : isMetaChar c = false := by simpa using hm
            obtain ⟨_, _, _, _, _, hcp, hbar, _⟩ := not_meta_facts hm2
            have hesc : escapeRegExp (c :: w2) ++ ')' :: tail =
                c :: (escapeRegExp w2 ++ ')' :: tail) := by
              simp [escapeRegExp, escChar, hm2]
            rw [hesc, parseSeqLoop, if_neg (by tauto),
              parseAtom_plain g c (escapeRegExp w2 ++ ')' :: tail) hm2]
            simp only [Option.some_bind]
            rw [if_neg hq1, if_neg hq2, if_neg hq3]
            have := ih (g + 1) (Regex.cat acc (.chr c)) tail (by omega)
            simpa [catLit] using this

/-- Parsing the pattern `'(' ++ escapeRegExp w ++ ')'` built by
`highlightText` for a literal term always succeeds and yields the
word regex of `w`: escaping makes every pattern-control character match
literally. -/
theorem parseRegex_escape (w : List Char) :
    parseRegex ('(' :: (escapeRegExp w ++ [')'])) = some (wordRegexOf w) := by
  have hwlen : w.length ≤ (escapeRegExp w).length := by
    induction w with
    | nil => simp [escapeRegExp]
    | cons c w2 ih =>
        simp only [escapeRegExp, escChar, List.length_cons, List.length_append]
        split <;> simp <;> omega
  unfold parseRegex
  obtain ⟨k, hk, hkw⟩ : ∃ k,
      2 * ('(' :: (escapeRegExp w ++ [')'])).length + 16 =
        k + 1 + 1 + 1 + 1 + 1 + 1 ∧ w.length + 1 ≤ k := by
    refine ⟨2 * ('(' :: (escapeRegExp w ++ [')'])).length + 10, by omega, ?_⟩
    simp only [List.length_cons, List.length_append, List.length_singleton]
    omega
  have h1 : parseAlt (k + 2) (escapeRegExp w ++ [')']) =
      some (catLit .eps w, [')']) := by
    rw [parseAlt, parseSeq, parseSeqLoop_escape w k .eps [] (by omega)]
    simp
  have h2 : parseAtom (k + 3) ('(' :: (escapeRegExp w ++ [')'])) =
      some (.group (catLit .eps w), []) := by
    rw [parseAtom, if_pos rfl, h1]
    simp
  have h3 : parseSeqLoop (k + 4) .eps ('(' :: (escapeRegExp w ++ [')'])) =
      some (.cat .eps (.group (catLit .eps w)), []) := by
    rw [parseSeqLoop, if_neg (by decide), h2]
    simp only [Option.some_bind, List.head?_nil]
    rw [if_neg (by decide), if_neg (by decide), if_neg (by decide)]
    rw [parseSeqLoop]
  have h4 : parseAlt (k + 6) ('(' :: (escapeRegExp w ++ [')'])) =
      some (.cat .eps (.group (catLit .eps w)), []) := by
    rw [parseAlt, parseSeq, h3]
    simp
  rw [hk, h4]
  rfl

theorem RMatch_eps_iff {ci : Bool} {s : List Char} :
    RMatch ci .eps s ↔ s = [] := by
  constructor
  · intro h; cases h; rfl
  · rintro rfl; exact .eps

theorem RMatch_chr_iff {ci : Bool} {d : Char} {s : List Char} :
    RMatch ci (.chr d) s ↔ ∃ c, s = [c] ∧ chEq ci d c = true := by
  constructor
  · intro h; cases h with | chr hc => exact ⟨_, rfl, hc⟩
  · rintro ⟨c, rfl, hc⟩; exact .chr hc

theorem RMatch_cat_iff {ci : Bool} {a b : Regex} {s : List Char} :
    RMatch ci (.cat a b) s ↔
      ∃ s1 s2, s = s1 ++ s2 ∧ RMatch ci a s1 ∧ RMatch ci b s2 := by
  constructor
  · intro h; cases h with | cat h1 h2 => exact ⟨_, _, rfl, h1, h2⟩
  · rintro ⟨s1, s2, rfl, h1, h2⟩; exact .cat h1 h2

theorem RMatch_group_iff {ci : Bool} {r : Regex} {s : List Char} :
    RMatch ci (.group r) s ↔ RMatch ci r s := by
  constructor
  · intro h; cases h with | group h1 => exact h1
  · exact .group

theorem RMatch_litRegex {w s : List Char} :
    RMatch true (litRegex w) s ↔ lstr s = lstr w := by
  induction w generalizing s with
  | nil =>
      simp only [litRegex, RMatch_eps_iff, lstr]
      constructor
      · rintro rfl; rfl
      · intro h; simpa using List.map_eq_nil_iff.mp h
  | cons c w2 ih =>
      simp only [litRegex, RMatch_cat_iff, RMatch_chr_iff]
      constructor
      · rintro ⟨s1, s2, rfl, ⟨d, rfl, hd⟩, h2⟩
        have hd2 : lc c = lc d := by simpa [chEq] using hd
        have h3 := ih.mp h2
        simp only [lstr, List.map_cons, List.singleton_append] at *
        exact List.cons_eq_cons.mpr ⟨hd2.symm, h3⟩
      · intro h
        cases s with
        | nil => simp [lstr] at h
        | cons d s2 =>
            simp only [lstr, List.map_cons, List.cons_eq_cons] at h
            refine ⟨[d], s2, rfl, ⟨d, rfl, ?_⟩, ih.mpr ?_⟩
            · simp [chEq, h.1]
            · simpa [lstr] using h.2

theorem RMatch_catLit {ci : Bool} {w : List Char} : ∀ {acc : Regex} {s : List Char},
    RMatch ci (catLit acc w) s ↔
      ∃ s1 s2, s = s1 ++ s2 ∧ RMatch ci acc s1 ∧ RMatch ci (litRegex w) s2 := by
  induction w with
  | nil =>
      intro acc s
      simp only [catLit, litRegex, RMatch_eps_iff]
      constructor
      · intro h; exact ⟨s, [], by simp, h, rfl⟩
      · rintro ⟨s1, s2, rfl, h1, rfl⟩; simpa using h1
  | cons c w2 ih =>
      intro acc s
      simp only [catLit, litRegex]
      rw [ih]
      constructor
      · rintro ⟨s1, s2, rfl, h1, h2⟩
        rw [RMatch_cat_iff] at h1
        obtain ⟨u, v, rfl, hu, hv⟩ := h1
        exact ⟨u, v ++ s2, by simp, hu, RMatch_cat_iff.mpr ⟨v, s2, rfl, hv, h2⟩⟩
      · rintro ⟨s1, s2, rfl, h1, h2⟩
        rw [RMatch_cat_iff] at h2
        obtain ⟨u, v, rfl, hu, hv⟩ := h2
        exact ⟨s1 ++ u, v, by simp, RMatch_cat_iff.mpr ⟨s1, u, rfl, h1, hu⟩, hv⟩

/-- Semantics of the pattern `highlightText` builds for a literal term:
it matches exactly the case-folded copies of the term. -/
theorem RMatch_wordRegex {w s : List Char} :
    RMatch true (wordRegexOf w) s ↔ lstr s = lstr w := by
  simp only [wordRegexOf, RMatch_cat_iff, RMatch_eps_iff, RMatch_group_iff]
  constructor
  · rintro ⟨s1, s2, rfl, rfl, h⟩
    rw [RMatch_catLit] at h
    obtain ⟨u, v, rfl, hu, hv⟩ := h
    rw [RMatch_eps_iff] at hu
    subst hu
    simpa using RMatch_litRegex.mp hv
  · intro h
    exact ⟨[], s, rfl, rfl, RMatch_catLit.mpr
      ⟨[], s, rfl, RMatch_eps_iff.mpr rfl, RMatch_litRegex.mpr h⟩⟩

theorem lstr_take (s : List Char) (n : Nat) :
    lstr (s.take n) = (lstr s).take n := by
  simp [lstr, List.map_take]

theorem lstr_length (s : List Char) : (lstr s).length = s.length := by
  simp [lstr]

/-- The longest-match behaviour of a literal word pattern: it succeeds,
with the word's length, exactly when a case-folded copy of `w` starts
here. -/
theorem maxMunch_word {w s : List Char} (hw : w ≠ []) :
    maxMunch true (wordRegexOf w) s =
      if lstr w <+: lstr s then some w.length else none := by
  split
  · rename_i hp
    have hlen : w.length ≤ s.length := by
      have := hp.length_le
      simpa [lstr_length] using this
    have htake : lstr (s.take w.length) = lstr w := by
      rw [lstr_take]
      have := List.prefix_iff_eq_take.mp hp
      rw [lstr_length] at this
      exact this.symm
    have hm : RMatch true (wordRegexOf w) (s.take w.length) :=
      RMatch_wordRegex.mpr htake
    have hs := @munch_complete true s (wordRegexOf w) 0 w.length hlen hm
    obtain ⟨j, hj⟩ := Option.isSome_iff_exists.mp hs
    obtain ⟨_, hle, hmm⟩ := munch_sound hj
    simp only [Nat.sub_zero] at hle hmm
    have hlenj : (s.take j).length = j := List.length_take_of_le hle
    have := RMatch_wordRegex.mp hmm
    have : j = w.length := by
      have h2 := congrArg List.length this
      rw [lstr_length, lstr_length, hlenj] at h2
      exact h2
    rw [maxMunch, hj, this]
  · rename_i hp
    cases hj : maxMunch true (wordRegexOf w) s with
    | none => rfl
    | some j =>
        obtain ⟨_, hle, hmm⟩ := munch_sound hj
        simp only [Nat.sub_zero] at hle hmm
        have := RMatch_wordRegex.mp hmm
        exact absurd (by
          rw [← this, lstr_take]
          exact List.take_prefix j (lstr s)) hp

/-- One global-replace pass of `text.replace(regex, '**$&**')` (equally
`'**$1**'` with the whole pattern in group 1): scan left to right, wrap
each maximal match at the current position in a pair of `**` markers and
continue after it.  Fuel-driven; `replaceRegexAll` supplies one unit of
fuel per character, which is always enough since every step either ends
the scan or consumes at least one input character. -/
def replAux (ci : Bool) (r : Regex) : Nat → List Char → List Char
  | 0, s => s
  | _ + 1, [] => if maxMunch ci r [] = none then [] else ['*', '*', '*', '*']
  | fuel + 1, c :: rest =>
      if maxMunch ci r (c :: rest) = none then c :: replAux ci r fuel rest
      else
        let l := (maxMunch ci r (c :: rest)).getD 0
        if l = 0 then '*' :: '*' :: '*' :: '*' :: c :: replAux ci r fuel rest
        else
          '*' :: '*' :: ((c :: rest).take l ++ '*' :: '*' ::
            replAux ci r fuel ((c :: rest).drop l))

/-- `String.replace` with the `g` flag and replacement `'**$&**'`. -/
def replaceRegexAll (ci : Bool) (r : Regex) (s : List Char) : List Char :=
  replAux ci r (s.length + 1) s

/-- Reference description of one literal-term highlighting pass: wrap the
leftmost, non-overlapping, case-insensitive occurrences of the term `w`
in `**` marker pairs, scanning left to right. -/
def wrapOccsAux (w : List Char) : Nat → List Char → List Char
  | 0, t => t
  | _ + 1, [] => []
  | fuel + 1, c :: rest =>
      if lstr w <+: lstr (c :: rest) then
        '*' :: '*' :: ((c :: rest).take w.length ++ '*' :: '*' ::
          wrapOccsAux w fuel ((c :: rest).drop w.length))
      else c :: wrapOccsAux w fuel rest

/-- Reference form of one literal-term highlighting pass. -/
def wrapOccs (w t : List Char) : List Char :=
  wrapOccsAux w (t.length + 1) t

theorem replAux_eq_wrapOccsAux {w : List Char} (hw : w ≠ []) :
    ∀ (fuel : Nat) (t : List Char),
      replAux true (wordRegexOf w) fuel t = wrapOccsAux w fuel t := by
  have hwpos : 1 ≤ w.length := by
    cases w with
    | nil => exact absurd rfl hw
    | cons c w2 => simp
  intro fuel
  induction fuel with
  | zero => intro t; rfl
  | succ f ih =>
      intro t
      cases t with
      | nil =>
          have hnone : maxMunch true (wordRegexOf w) [] = none := by
            rw [maxMunch_word hw, if_neg]
            simp only [lstr, List.map_nil, List.prefix_nil, List.map_eq_nil_iff]
            exact hw
          rw [replAux, wrapOccsAux, if_pos hnone]
      | cons c rest =>
          by_cases hp : lstr w <+: lstr (c :: rest)
          · have hmw := maxMunch_word (s := c :: rest) hw
            rw [if_pos hp] at hmw
            rw [replAux, wrapOccsAux, hmw, if_pos hp]
            have h1 : ¬ (some w.length = none) := by simp
            rw [if_neg h1]
            simp only [Option.getD_some]
            rw [if_neg (by omega)]
            simp only [ih]
          · have hmw := maxMunch_word (s := c :: rest) hw
            rw [if_neg hp] at hmw
            rw [replAux, wrapOccsAux, hmw, if_pos rfl, if_neg hp, ih]

/-- The highlighting pass the source builds for a literal term equals the
leftmost non-overlapping wrap of that term. -/
theorem replaceRegexAll_wordRegex {w t : List Char} (hw : w ≠ []) :
    replaceRegexAll true (wordRegexOf w) t = wrapOccs w t :=
  replAux_eq_wrapOccsAux hw (t.length + 1) t

theorem lstr_infix_cons {w : List Char} {c : Char} {rest : List Char}
    (h : lstr w <:+: lstr rest) : lstr w <:+: lstr (c :: rest) := by
  simpa [lstr] using isInfixConsExtend (lc c) (by simpa [lstr] using h)

/-- A term with no case-insensitive occurrence in the text is left
untouched by the wrapping pass. -/
theorem wrapOccsAux_id {w : List Char} : ∀ (fuel : Nat) (t : List Char),
    ¬ (lstr w <:+: lstr t) → wrapOccsAux w fuel t = t := by
  intro fuel
  induction fuel with
  | zero => intro t _; rfl
  | succ f ih =>
      intro t hocc
      cases t with
      | nil => rw [wrapOccsAux]
      | cons c rest =>
          rw [wrapOccsAux, if_neg (fun hp => hocc hp.isInfix),
            ih rest (fun h => hocc (lstr_infix_cons h))]

theorem wrapOccs_id {w t : List Char} (h : ¬ (lstr w <:+: lstr t)) :
    wrapOccs w t = t :=
  wrapOccsAux_id (t.length + 1) t h

/-- SQL `LIKE`/`ILIKE` pattern matching: `%` matches any sequence, `_` any
single character, `\` escapes the next pattern character; any other
pattern character matches itself, case-insensitively when `ci` is set
(`ILIKE`).  A pattern ending in a bare `\` matches nothing (PostgreSQL
raises `invalid escape` there; the searched patterns never do). -/
def likeMatch (ci : Bool) : List Char → List Char → Bool
  | [], s => s.isEmpty
  | p :: ps, s =>
      if p = '%' then s.tails.any (fun t => likeMatch ci ps t)
      else if p = '\\' then
        match ps, s with
        | pp :: ps2, c :: rest => chEq ci pp c && likeMatch ci ps2 rest
        | _, _ => false
      else
        match s with
        | [] => false
        | c :: rest => (if p = '_' then true else chEq ci p c) && likeMatch ci ps rest

theorem likeMatch_cons (ci : Bool) (p : Char) (ps s : List Char) :
    likeMatch ci (p :: ps) s =
      if p = '%' then s.tails.any (fun t => likeMatch ci ps t)
      else if p = '\\' then
        match ps, s with
        | pp :: ps2, c :: rest => chEq ci pp c && likeMatch ci ps2 rest
        | _, _ => false
      else
        match s with
        | [] => false
        | c :: rest =>
            (if p = '_' then true else chEq ci p c) && likeMatch ci ps rest := by
  rw [likeMatch.eq_def]

theorem likeMatch_pct {ci : Bool} {ps s : List Char} :
    likeMatch ci ('%' :: ps) s = true ↔
      ∃ t, t <:+ s ∧ likeMatch ci ps t = true := by
  rw [likeMatch_cons, if_pos rfl]
  rw [List.any_eq_true]
  constructor
  · rintro ⟨t, ht, h⟩
    exact ⟨t, (List.mem_tails t s).mp ht, h⟩
  · rintro ⟨t, ht, h⟩
    exact ⟨t, (List.mem_tails t s).mpr ht, h⟩

theorem likeMatch_lit_pct {q : List Char}
    (hq : ∀ c ∈ q, c ≠ '%' ∧ c ≠ '_' ∧ c ≠ '\\') : ∀ {t : List Char},
    likeMatch true (q ++ ['%']) t = true ↔ lstr q <+: lstr t := by
  induction q with
  | nil =>
      intro t
      simp only [List.nil_append]
      constructor
      · intro _
        simp [lstr, List.nil_prefix]
      · intro _
        rw [likeMatch_pct]
        exact ⟨[], List.nil_suffix, rfl⟩
  | cons c q2 ih =>
      intro t
      obtain ⟨hpct, hund, hesc⟩ := hq c (by simp)
      have hq2 : ∀ d ∈ q2, d ≠ '%' ∧ d ≠ '_' ∧ d ≠ '\\' :=
        fun d hd => hq d (by simp [hd])
      rw [List.cons_append, likeMatch_cons, if_neg hpct, if_neg hesc]
      cases t with
      | nil =>
          simp [lstr]
      | cons d rest =>
          simp only [Bool.and_eq_true, if_neg hund]
          constructor
          · rintro ⟨h1, h2⟩
            have hcd : lc c = lc d := by simpa [chEq] using h1
            simp only [lstr, List.map_cons, List.cons_prefix_cons]
            exact ⟨hcd, (ih hq2).mp h2⟩
          · intro h
            simp only [lstr, List.map_cons, List.cons_prefix_cons] at h
            exact ⟨by simp [chEq, h.1], (ih hq2).mpr h.2⟩

theorem lstr_drop (t : List Char) (n : Nat) :
    lstr (t.drop n) = (lstr t).drop n := by
  simp [lstr, List.map_drop]

theorem lstr_infix_iff {q t : List Char} :
    lstr q <:+: lstr t ↔ ∃ s, s <:+ t ∧ lstr q <+: lstr s := by
  constructor
  · intro h
    obtain ⟨u, hu, hp⟩ := infix_iff_suffix_part.mp h
    obtain ⟨v, hv⟩ := hu
    refine ⟨t.drop v.length, List.drop_suffix _ _, ?_⟩
    rw [lstr_drop, ← hv, List.drop_left]
    exact hp
  · rintro ⟨s, hs, hp⟩
    refine infix_iff_suffix_part.mpr ⟨lstr s, ?_, hp⟩
    obtain ⟨v, hv⟩ := hs
    exact ⟨lstr v, by rw [← hv]; simp [lstr]⟩

/-- The `ILIKE '%q%'` condition built for a literal search query whose
text contains no `LIKE` metacharacter is exactly case-insensitive
substring containment. -/
theorem ilike_contains_iff {q t : List Char}
    (hq : ∀ c ∈ q, c ≠ '%' ∧ c ≠ '_' ∧ c ≠ '\\') :
    likeMatch true ('%' :: (q ++ ['%'])) t = true ↔ lstr q <:+: lstr t := by
  rw [likeMatch_pct, lstr_infix_iff]
  constructor
  · rintro ⟨s, hs, h⟩
    exact ⟨s, hs, (likeMatch_lit_pct hq).mp h⟩
  · rintro ⟨s, hs, h⟩
    exact ⟨s, hs, (likeMatch_lit_pct hq).mpr h⟩

/-- `query.split(/\s+/).filter(w => w.length > 0)`: the maximal
whitespace-free runs of the query, in order.  Fuel-driven (one unit per
character suffices). -/
def splitNonWsAux : Nat → List Char → List (List Char)
  | 0, _ => []
  | fuel + 1, [] => []
  | fuel + 1, c :: rest =>
      if c.isWhitespace then splitNonWsAux fuel rest
      else (c :: rest.takeWhile (fun d => !d.isWhitespace)) ::
           splitNonWsAux fuel (rest.dropWhile (fun d => !d.isWhitespace))

/-- The whitespace-delimited terms of a literal query. -/
def splitNonWs (s : List Char) : List (List Char) :=
  splitNonWsAux (s.length + 1) s

theorem splitNonWsAux_ne_nil : ∀ (fuel : Nat) (s : List Char),
    ∀ w ∈ splitNonWsAux fuel s, w ≠ [] := by
  intro fuel
  induction fuel with
  | zero => intro s w hw; simp [splitNonWsAux] at hw
  | succ f ih =>
      intro s w hw
      cases s with
      | nil => simp [splitNonWsAux] at hw
      | cons c rest =>
          rw [splitNonWsAux] at hw
          split at hw
          · exact ih _ w hw
          · rcases List.mem_cons.mp hw with rfl | h
            · simp
            · exact ih _ w h

theorem splitNonWs_ne_nil {s : List Char} : ∀ w ∈ splitNonWs s, w ≠ [] :=
  splitNonWsAux_ne_nil (s.length + 1) s

/-- `Message.highlightText` (part_007 lines 281-302).  For a regex query
the pattern between the slashes is compiled with flags `gi`; a pattern
the engine rejects leaves the text unhighlighted (the `try`/`catch`).
For a literal query every whitespace-delimited term is escaped with
`escapeRegExp`, compiled with flags `gi`, and every match replaced by
`**$1**`; the escaped pattern always compiles (`parseRegex_escape`), the
`none` fallback is unreachable. -/
def highlightText (text q : List Char) (isRx : Bool) : List Char :=
  if isRx then
    match parseRegex ((q.drop 1).dropLast) with
    | none => text
    | some r => replaceRegexAll true r text
  else
    (splitNonWs q).foldl (fun acc w =>
      match parseRegex ('(' :: (escapeRegExp w ++ [')'])) with
      | none => acc
      | some r => replaceRegexAll true r acc) text

theorem hlFold_eq : ∀ (words : List (List Char)) (t : List Char),
    (∀ w ∈ words, w ≠ []) →
    words.foldl (fun acc w =>
      match parseRegex ('(' :: (escapeRegExp w ++ [')'])) with
      | none => acc
      | some r => replaceRegexAll true r acc) t
    = words.foldl (fun acc w => wrapOccs w acc) t := by
  intro words
  induction words with
  | nil => intro t _; rfl
  | cons w ws ih =>
      intro t hne
      simp only [List.foldl_cons]
      have hstep : (match parseRegex ('(' :: (escapeRegExp w ++ [')'])) with
          | none => t
          | some r => replaceRegexAll true r t) = wrapOccs w t := by
        rw [parseRegex_escape w]
        exact replaceRegexAll_wordRegex (hne w (by simp))
      rw [hstep]
      exact ih _ (fun w2 h => hne w2 (by simp [h]))

/-- The literal branch of `highlightText` is the sequence of
leftmost-non-overlapping wrapping passes, one per term, each applied to
the output of the previous one. -/
theorem highlightText_literal (t q : List Char) :
    highlightText t q false =
      (splitNonWs q).foldl (fun acc w => wrapOccs w acc) t := by
  rw [show highlightText t q false = (splitNonWs q).foldl (fun acc w =>
      match parseRegex ('(' :: (escapeRegExp w ++ [')'])) with
      | none => acc
      | some r => replaceRegexAll true r acc) t from rfl]
  exact hlFold_eq _ t splitNonWs_ne_nil

/-- If no term of the query occurs (case-insensitively) in the text, the
literal branch of `highlightText` returns the text unchanged. -/
theorem highlightText_literal_id (t q : List Char)
    (h : ∀ w ∈ splitNonWs q, ¬ (lstr w <:+: lstr t)) :
    highlightText t q false = t := by
  rw [highlightText_literal]
  have : ∀ (ws : List (List Char)), (∀ w ∈ ws, ¬ (lstr w <:+: lstr t)) →
      ws.foldl (fun acc w => wrapOccs w acc) t = t := by
    intro ws
    induction ws with
    | nil => intro _; rfl
    | cons w ws2 ih =>
        intro hws
        simp only [List.foldl_cons]
        rw [wrapOccs_id (hws w (by simp))]
        exact ih (fun w2 h2 => hws w2 (by simp [h2]))
  exact this _ h

/-! ## Data model (schema of part_000, row shapes of part_002/part_007) -/

/-- A `users` row.  `id` is the primary key. -/
structure UserData where
  id : Int
  username : Option (List Char)
  first_name : Option (List Char)
  last_name : Option (List Char)
  created_at : Int
deriving DecidableEq, Repr

/-- A `messages` row. -/
structure MessageData where
  id : Int
  user_id : Int
  chat_id : Int
  text : List Char
  created_at : Int
deriving DecidableEq, Repr

/-- The relational store.  `users.id` is assumed unique (primary key). -/
structure Db where
  users : List UserData
  messages : List MessageData
deriving DecidableEq, Repr

/-- The foreign-key invariant of the schema: every message references an
existing user (`user_id REFERENCES users(id)`). -/
def fkHolds (db : Db) : Prop :=
  ∀ m ∈ db.messages, ∃ u ∈ db.users, u.id = m.user_id

instance (db : Db) : Decidable (fkHolds db) := by
  unfold fkHolds
  infer_instance

/-- A row of `Message.getUserStats` (per-user message counts in a chat). -/
structure UserStatRow where
  user_id : Int
  username : Option (List Char)
  first_name : Option (List Char)
  last_name : Option (List Char)
  message_count : Nat
deriving DecidableEq, Repr

/-- The row returned by the SQL function `get_user_stats`. -/
structure UserStatsRow where
  message_count : Nat
  first_message : Option Int
  last_message : Option Int
deriving DecidableEq, Repr

/-- A search result row as returned by the SQL query of
`Message.searchMessages` (before highlighting is attached). -/
structure SearchRowB where
  id : Int
  user_id : Int
  username : Option (List Char)
  first_name : Option (List Char)
  last_name : Option (List Char)
  text : List Char
  created_at : Int
deriving DecidableEq, Repr

/-- A search result row with its highlighted rendering. -/
structure SearchRow where
  id : Int
  user_id : Int
  username : Option (List Char)
  first_name : Option (List Char)
  last_name : Option (List Char)
  text : List Char
  created_at : Int
  highlighted_text : List Char
deriving DecidableEq, Repr

/-- `StatsPeriod` of stats.ts. -/
inductive StatsPeriod where
  | all
  | today
  | week
  | month
deriving DecidableEq, Repr

/-- The string form of a period (used in cache keys). -/
def periodStr : StatsPeriod → List Char
  | .all => "all".data
  | .today => "today".data
  | .week => "week".data
  | .month => "month".data

/-- `getDaysLimit` of stats.ts: the day window of each period. -/
def getDaysLimit : StatsPeriod → Option Int
  | .today => some 1
  | .week => some 7
  | .month => some 30
  | .all => none

/-- `StatsData` of stats.ts. -/
structure StatsData where
  period : StatsPeriod
  totalMessages : Nat
  topUsers : List UserStatRow
  cached : Bool
deriving DecidableEq, Repr

/-- `SearchResult` of search.ts. -/
structure SearchResultData where
  query : List Char
  totalResults : Nat
  results : List SearchRow
  page : Nat
  totalPages : Nat
  cached : Bool
deriving DecidableEq, Repr

/-- The object cached by `getUserStatsData` in stats.ts. -/
structure UserStatsData where
  user : UserData
  stats : Option UserStatsRow
  recentMessages : List MessageData
  cached : Bool
deriving DecidableEq, Repr

/-- The value used by the users-list read path.  The underlying JS value
is a bare array of rows; `cached` models the dynamically attached JS
property of that name — `none` means the property is absent (the code
never sets it on this path). -/
structure UsersListData where
  rows : List UserStatRow
  cached : Option Bool
deriving DecidableEq, Repr

/-- The deserialized form of a cache entry.  `JSON.stringify`/`JSON.parse`
round-tripping is modelled by storing the structured value itself. -/
inductive StoredVal where
  | stats (d : StatsData)
  | userStats (d : UserStatsData)
  | usersList (rows : List UserStatRow)
  | search (d : SearchResultData)
deriving DecidableEq, Repr

/-! ## Cache store (`RedisService`, part_004 lines 89-208) -/

inductive RedisErr where
  | unavailable
deriving DecidableEq, Repr

/-- The cache backend: stored entries (key, value, remaining TTL) plus a
failure oracle per operation, modelling an unreachable or failing Redis.
The value type is a parameter: the service stores strings; the
orchestrator's entries are modelled at the deserialized level. -/
structure RedisBackend (α : Type) where
  entries : List (List Char × α × Nat)
  failGet : Bool
  failSet : Bool
  failDel : Bool
deriving DecidableEq, Repr

/-- First entry stored under a key (later `setEx` calls shadow earlier
ones). -/
def lookupEntry {α : Type} (es : List (List Char × α × Nat)) (k : List Char) :
    Option α :=
  match es.find? (fun e => e.1 == k) with
  | some e => some e.2.1
  | none => none

/-- The raw client `get`: raises when the backend is failing. -/
def clientGet {α : Type} (b : RedisBackend α) (k : List Char) :
    Except RedisErr (Option α) :=
  if b.failGet then .error .unavailable else .ok (lookupEntry b.entries k)

/-- The raw client `setEx`. -/
def clientSetEx {α : Type} (b : RedisBackend α) (k : List Char) (ttl : Nat)
    (v : α) : Except RedisErr (RedisBackend α) :=
  if b.failSet then .error .unavailable
  else .ok { b with entries := (k, v, ttl) :: b.entries }

/-- The raw client `del`. -/
def clientDel {α : Type} (b : RedisBackend α) (k : List Char) :
    Except RedisErr (RedisBackend α) :=
  if b.failDel then .error .unavailable
  else .ok { b with entries := b.entries.filter (fun e => !(e.1 == k)) }

/-- `RedisService.get`: returns the stored value, or absence on any
backend error (the `try`/`catch` swallows it). -/
def RedisService.get {α : Type} (b : RedisBackend α) (k : List Char) :
    Option α :=
  match clientGet b k with
  | .ok v => v
  | .error _ => none

/-- `RedisService.set` (default TTL 1200 seconds): stores the value with
expiry; on backend error the error is swallowed and the store is a
no-op. -/
def RedisService.set {α : Type} (b : RedisBackend α) (k : List Char) (v : α)
    (ttl : Nat) : RedisBackend α :=
  match clientSetEx b k ttl v with
  | .ok b2 => b2
  | .error _ => b

/-- `RedisService.delete`: removes a key, best-effort. -/
def RedisService.delete {α : Type} (b : RedisBackend α) (k : List Char) :
    RedisBackend α :=
  match clientDel b k with
  | .ok b2 => b2
  | .error _ => b

/-! ## Cache key derivation (part_004 lines 180-208) -/

def intToChars (n : Int) : List Char := (toString n).data

def natToChars (n : Nat) : List Char := (toString n).data

/-- `RedisService.createStatsCacheKey`. -/
def createStatsCacheKey (chatId : Int) (period : List Char) : List Char :=
  "stats:".data ++ intToChars chatId ++ ':' :: period

/-- `RedisService.createUserStatsCacheKey`. -/
def createUserStatsCacheKey (chatId userId : Int) (period : List Char) :
    List Char :=
  "user_stats:".data ++ intToChars chatId ++ ':' ::
    (intToChars userId ++ ':' :: period)

/-- `RedisService.createUsersListCacheKey`. -/
def createUsersListCacheKey (chatId : Int) : List Char :=
  "users_list:".data ++ intToChars chatId

/-- The character class kept by search-key normalization:
`[a-zA-Z0-9а-яА-Я]` (ASCII alphanumerics plus the configured Cyrillic
ranges). -/
def isKeyChar (c : Char) : Bool :=
  decide ('a' ≤ c ∧ c ≤ 'z') || decide ('A' ≤ c ∧ c ≤ 'Z') ||
  decide ('0' ≤ c ∧ c ≤ '9') || decide ('а' ≤ c ∧ c ≤ 'я') ||
  decide ('А' ≤ c ∧ c ≤ 'Я')

/-- Query normalization of `createSearchCacheKey`: replace every character
outside the kept class with `_`, then truncate to 50 characters. -/
def normalizeQuery (q : List Char) : List Char :=
  (q.map (fun c => if isKeyChar c then c else '_')).take 50

/-- `RedisService.createSearchCacheKey`. -/
def createSearchCacheKey (chatId : Int) (q : List Char) (page : Nat) :
    List Char :=
  "search:".data ++ intToChars chatId ++ ':' ::
    (normalizeQuery q ++ ':' :: natToChars page)

/-! ## Statistics aggregator (part_007, part_002, part_000) -/

/-- JS truthiness applied to an optional day limit (`if (daysLimit)`,
`daysLimit || null`): a zero limit counts as absent. -/
def jsTruthyDays : Option Int → Option Int
  | some v => if v = 0 then none else some v
  | none => none

/-- The SQL recency filter
`created_at >= CURRENT_TIMESTAMP - INTERVAL '1 day' * d` (absent filter
accepts everything).  Timestamps are seconds; one day is 86400. -/
def dayOk (daysLimit : Option Int) (now t : Int) : Bool :=
  match daysLimit with
  | none => true
  | some d => decide (now - d * 86400 ≤ t)

/-- Ordering `ORDER BY message_count DESC` (ties left in a stable,
deterministic order, one admissible resolution of the unspecified SQL tie
order). -/
def countDesc (a b : UserStatRow) : Prop := b.message_count ≤ a.message_count

instance : DecidableRel countDesc := fun a b => Nat.decLe _ _

instance : IsTotal UserStatRow countDesc := ⟨fun a b => Nat.le_total _ _⟩

instance : IsTrans UserStatRow countDesc :=
  ⟨fun _ _ _ hab hbc => Nat.le_trans hbc hab⟩

/-- `Message.getUserStats` (part_007 lines 96-127): per-user message
counts in a chat, optionally day-filtered, ordered by descending count.
The join keeps only users with at least one matching message. -/
def Message.getUserStats (db : Db) (chatId : Int) (daysLimit : Option Int)
    (now : Int) : List UserStatRow :=
  let dl := jsTruthyDays daysLimit
  let msgs := db.messages.filter
    (fun m => m.chat_id == chatId && dayOk dl now m.created_at)
  let rows := db.users.filterMap (fun u =>
    let c := (msgs.filter (fun m => m.user_id == u.id)).length
    if c = 0 then none
    else some ⟨u.id, u.username, u.first_name, u.last_name, c⟩)
  List.insertionSort countDesc rows

/-- `Message.getTopUsers` (part_007 lines 132-141). -/
def Message.getTopUsers (db : Db) (chatId : Int) (limit : Nat)
    (daysLimit : Option Int) (now : Int) : List UserStatRow :=
  (Message.getUserStats db chatId daysLimit now).take limit

/-- `Message.getTotalCount` (part_007 lines 146-159). -/
def Message.getTotalCount (db : Db) (chatId : Int) (daysLimit : Option Int)
    (now : Int) : Nat :=
  (db.messages.filter (fun m =>
    m.chat_id == chatId && dayOk (jsTruthyDays daysLimit) now m.created_at)).length

/-- Ordering `ORDER BY created_at DESC` on messages. -/
def createdDesc (a b : MessageData) : Prop := b.created_at ≤ a.created_at

instance : DecidableRel createdDesc := fun a b => Int.decLe _ _

instance : IsTotal MessageData createdDesc := ⟨fun a b => Int.le_total _ _⟩

instance : IsTrans MessageData createdDesc :=
  ⟨fun _ _ _ hab hbc => Int.le_trans hbc hab⟩

/-- `Message.getRecentMessages` (part_007 lines 164-174): the `limit`
most recent messages of a user, selected in descending creation order and
then reversed into chronological order. -/
def Message.getRecentMessages (db : Db) (userId : Int) (limit : Nat) :
    List MessageData :=
  ((List.insertionSort createdDesc
      (db.messages.filter (fun m => m.user_id == userId))).take limit).reverse

def minInt? (l : List Int) : Option Int :=
  l.foldl (fun acc t =>
    match acc with
    | none => some t
    | some m => some (min m t)) none

def maxInt? (l : List Int) : Option Int :=
  l.foldl (fun acc t =>
    match acc with
    | none => some t
    | some m => some (max m t)) none

/-- The SQL function `get_user_stats` (part_000 lines 31-47):
`COUNT(*)`, `MIN(created_at)`, `MAX(created_at)` over the user's
(optionally day-filtered) messages.  An aggregate query without
`GROUP BY` always returns exactly one row; with no matching messages that
row is `(0, NULL, NULL)`. -/
def get_user_stats (db : Db) (userId : Int) (daysLimit : Option Int)
    (now : Int) : UserStatsRow :=
  let msgs := db.messages.filter
    (fun m => m.user_id == userId && dayOk daysLimit now m.created_at)
  ⟨msgs.length, minInt? (msgs.map (·.created_at)),
    maxInt? (msgs.map (·.created_at))⟩

/-- `User.getStats` (part_002 lines 54-62): `daysLimit || null` forwards a
zero limit as NULL; `result.rows[0] || null` is the (always present)
aggregate row. -/
def User.getStats (db : Db) (userId : Int) (daysLimit : Option Int)
    (now : Int) : Option UserStatsRow :=
  some (get_user_stats db userId (jsTruthyDays daysLimit) now)

/-- `User.findById` (part_002 lines 36-40). -/
def User.findById (db : Db) (id : Int) : Option UserData :=
  db.users.find? (fun u => u.id == id)

/-! ## Search engine (part_007 lines 197-276) -/

inductive DbErr where
  | invalidRegex
deriving DecidableEq, Repr

/-- Query classification of `searchMessages`/`countSearchResults`:
leading and trailing `/` with length above 2 means a regex query. -/
def isRegexQuery (q : List Char) : Bool :=
  (q.head? == some '/') && (q.getLast? == some '/') && decide (2 < q.length)

/-- `searchQuery.slice(1, -1)`: the pattern between the slashes. -/
def innerPattern (q : List Char) : List Char := (q.drop 1).dropLast

/-- The SQL text condition both search functions build (duplicated in the
source): `text ~ pattern` for a regex query — case-SENSITIVE PostgreSQL
regex matching — and `text ILIKE '%query%'` otherwise.  `none` models the
query failing with `invalid regular expression`. -/
def compileSearchCond (q : List Char) : Option (List Char → Bool) :=
  if isRegexQuery q then
    (parseRegex (innerPattern q)).map (fun r t => existsMatch false r t)
  else some (fun t => likeMatch true ('%' :: (q ++ ['%'])) t)

/-- Ordering `ORDER BY m.created_at DESC` on joined search rows. -/
def rowDesc (a b : SearchRowB) : Prop := b.created_at ≤ a.created_at

instance : DecidableRel rowDesc := fun a b => Int.decLe _ _

instance : IsTotal SearchRowB rowDesc := ⟨fun a b => Int.le_total _ _⟩

instance : IsTrans SearchRowB rowDesc :=
  ⟨fun _ _ _ hab hbc => Int.le_trans hbc hab⟩

/-- The `messages JOIN users` rows of a chat whose text satisfies the
search condition. -/
def joinedMatches (db : Db) (chatId : Int) (pred : List Char → Bool) :
    List SearchRowB :=
  db.messages.filterMap (fun m =>
    if m.chat_id == chatId && pred m.text then
      (db.users.find? (fun u => u.id == m.user_id)).map (fun u =>
        ⟨m.id, m.user_id, u.username, u.first_name, u.last_name,
          m.text, m.created_at⟩)
    else none)

/-- All matches of a chat, ordered by descending creation time. -/
def sortedMatches (db : Db) (chatId : Int) (pred : List Char → Bool) :
    List SearchRowB :=
  List.insertionSort rowDesc (joinedMatches db chatId pred)

/-- Attach `highlighted_text` to a result row. -/
def addHighlight (q : List Char) (isRx : Bool) (r : SearchRowB) : SearchRow :=
  ⟨r.id, r.user_id, r.username, r.first_name, r.last_name, r.text,
    r.created_at, highlightText r.text q isRx⟩

/-- `Message.searchMessages` (part_007 lines 197-247). -/
def Message.searchMessages (db : Db) (chatId : Int) (q : List Char)
    (limit offset : Nat) : Except DbErr (List SearchRow) :=
  match compileSearchCond q with
  | none => .error .invalidRegex
  | some pred =>
      .ok ((((sortedMatches db chatId pred).drop offset).take limit).map
        (addHighlight q (isRegexQuery q)))

/-- `Message.countSearchResults` (part_007 lines 252-276).  Note: no join
with `users` here. -/
def Message.countSearchResults (db : Db) (chatId : Int) (q : List Char) :
    Except DbErr Nat :=
  match compileSearchCond q with
  | none => .error .invalidRegex
  | some pred =>
      .ok ((db.messages.filter
        (fun m => m.chat_id == chatId && pred m.text)).length)

/-- The full ranked match set of a query (every page is a slice of it). -/
def fullMatches (db : Db) (chatId : Int) (q : List Char) : List SearchRow :=
  match compileSearchCond q with
  | none => []
  | some pred =>
      (sortedMatches db chatId pred).map (addHighlight q (isRegexQuery q))

/-! ## Read-through cache orchestrators (stats.ts, search.ts) -/

inductive AppErr where
  | userNotFound
deriving DecidableEq, Repr

/-- `getStatsData` (stats.ts lines 57-82): cache-aside chat statistics.
A hit returns the deserialized entry marked `cached = true`; a miss
computes from the store, marks `cached = false` and caches for 1200
seconds.  (A value of a different shape under a stats key cannot be
produced by the code itself — key prefixes are disjoint — and falls
through to the compute path.) -/
def getStatsData (db : Db) (now : Int) (b : RedisBackend StoredVal)
    (chatId : Int) (period : StatsPeriod) :
    StatsData × RedisBackend StoredVal :=
  let key := createStatsCacheKey chatId (periodStr period)
  match RedisService.get b key with
  | some (.stats d) => ({ d with cached := true }, b)
  | _ =>
      let daysLimit := getDaysLimit period
      let topUsers := Message.getTopUsers db chatId 10 daysLimit now
      let totalMessages := Message.getTotalCount db chatId daysLimit now
      let sd : StatsData := ⟨period, totalMessages, topUsers, false⟩
      (sd, RedisService.set b key (.stats sd) 1200)

/-- `getUserStatsData` (stats.ts lines 309-344). -/
def getUserStatsData (db : Db) (now : Int) (b : RedisBackend StoredVal)
    (chatId userId : Int) (period : StatsPeriod) :
    Except AppErr (UserStatsData × RedisBackend StoredVal) :=
  let key := createUserStatsCacheKey chatId userId (periodStr period)
  match RedisService.get b key with
  | some (.userStats d) => .ok ({ d with cached := true }, b)
  | _ =>
      match User.findById db userId with
      | none => .error .userNotFound
      | some user =>
          let stats := User.getStats db userId (getDaysLimit period) now
          let recentMessages := Message.getRecentMessages db userId 5
          let data : UserStatsData := ⟨user, stats, recentMessages, false⟩
          .ok (data, RedisService.set b key (.userStats data) 600)

/-- The users-list read path of `handleUsersList` (stats.ts lines
242-254): note that neither branch attaches any `cached` marker to the
parsed array. -/
def getUsersListData (db : Db) (now : Int) (b : RedisBackend StoredVal)
    (chatId : Int) : UsersListData × RedisBackend StoredVal :=
  let key := createUsersListCacheKey chatId
  match RedisService.get b key with
  | some (.usersList rows) => (⟨rows, none⟩, b)
  | _ =>
      let users := Message.getUserStats db chatId none now
      (⟨users, none⟩, RedisService.set b key (.usersList users) 600)

/-- `getSearchResults` (search.ts lines 436-467): cache-aside search
page. -/
def getSearchResults (db : Db) (b : RedisBackend StoredVal) (chatId : Int)
    (q : List Char) (page : Nat) :
    Except DbErr (SearchResultData × RedisBackend StoredVal) :=
  let key := createSearchCacheKey chatId q page
  match RedisService.get b key with
  | some (.search d) => .ok ({ d with cached := true }, b)
  | _ =>
      let resultsPerPage := 5
      let offset := page * resultsPerPage
      match Message.searchMessages db chatId q resultsPerPage offset with
      | .error e => .error e
      | .ok results =>
          match Message.countSearchResults db chatId q with
          | .error e => .error e
          | .ok totalResults =>
              -- `Math.ceil(totalResults / 5)` computed over naturals
              let totalPages := (totalResults + resultsPerPage - 1) / resultsPerPage
              let sr : SearchResultData :=
                ⟨q, totalResults, results, page, totalPages, false⟩
              .ok (sr, RedisService.set b key (.search sr) 600)

/-- `message.text.split(' ')`: split on each single space, keeping empty
pieces. -/
def splitOnSpace : List Char → List (List Char)
  | [] => [[]]
  | c :: rest =>
      let ps := splitOnSpace rest
      if c = ' ' then [] :: ps
      else
        match ps with
        | [] => [[c]]
        | p :: pr => (c :: p) :: pr

/-- `String.prototype.trim`. -/
def trimWs (s : List Char) : List Char :=
  ((s.dropWhile Char.isWhitespace).reverse.dropWhile Char.isWhitespace).reverse

/-- The observable outcome of the `/search` command handler. -/
inductive SearchOutcome where
  | usage
  | genericError
  | noResults
  | results (r : SearchResultData)
deriving DecidableEq, Repr

/-- `handleSearchCommand` (search.ts lines 530-589): the query is the
space-joined arguments after the command word, trimmed.  An empty query
replies with the usage instructions and performs no search; a failing
search is caught and reported as a generic error; an executed search with
zero matches is reported as "nothing found"; otherwise the result page is
rendered. -/
def handleSearchCommand (db : Db) (b : RedisBackend StoredVal) (chatId : Int)
    (messageText : List Char) : SearchOutcome × RedisBackend StoredVal :=
  let args := (splitOnSpace messageText).drop 1
  let q := trimWs (List.intercalate [' '] args)
  if q = [] then (.usage, b)
  else
    match getSearchResults db b chatId q 0 with
    | .error _ => (.genericError, b)
    | .ok (sr, b2) =>
        if sr.totalResults = 0 then (.noResults, b2) else (.results sr, b2)

/-! ## Claim theorems -/

/-- C5: every cache-key derivation function returns exactly the specified
format (`stats:{chatId}:{period}`, `user_stats:{chatId}:{userId}:{period}`,
`users_list:{chatId}`, `search:{chatId}:{normalizedQuery}:{page}` with the
normalized query restricted to `[A-Za-z0-9а-яА-Я]`-characters and `_` and
truncated to 50 characters); the functions are pure, different periods for
the same chat give different stats keys, and queries with different
normalized forms give different search keys. -/
theorem cacheKeys_c5 :
    (∀ (c : Int) (p : List Char),
      createStatsCacheKey c p = "stats:".data ++ intToChars c ++ ':' :: p) ∧
    (∀ (c u : Int) (p : List Char),
      createUserStatsCacheKey c u p =
        "user_stats:".data ++ intToChars c ++ ':' ::
          (intToChars u ++ ':' :: p)) ∧
    (∀ c : Int, createUsersListCacheKey c = "users_list:".data ++ intToChars c) ∧
    (∀ (c : Int) (q : List Char) (pg : Nat),
      createSearchCacheKey c q pg =
        "search:".data ++ intToChars c ++ ':' ::
          (normalizeQuery q ++ ':' :: natToChars pg)) ∧
    createStatsCacheKey 100 "week".data = "stats:100:week".data ∧
    createUserStatsCacheKey 100 42 "month".data = "user_stats:100:42:month".data ∧
    (∀ (c : Int) (p1 p2 : List Char), p1 ≠ p2 →
      createStatsCacheKey c p1 ≠ createStatsCacheKey c p2) ∧
    (∀ (c : Int) (pg : Nat) (q1 q2 : List Char),
      normalizeQuery q1 ≠ normalizeQuery q2 →
      createSearchCacheKey c q1 pg ≠ createSearchCacheKey c q2 pg) ∧
    (∀ q : List Char, (normalizeQuery q).length ≤ 50 ∧
      ∀ ch ∈ normalizeQuery q, isKeyChar ch = true ∨ ch = '_') := by
  refine ⟨fun c p => rfl, fun c u p => rfl, fun c => rfl, fun c q pg => rfl,
    by decide, by decide, ?_, ?_, ?_⟩
  · intro c p1 p2 hne heq
    unfold createStatsCacheKey at heq
    have h1 := List.append_cancel_left heq
    simp only [List.cons.injEq, true_and] at h1
    exact hne h1
  · intro c pg q1 q2 hne heq
    unfold createSearchCacheKey at heq
    have h1 := List.append_cancel_left heq
    simp only [List.cons.injEq, true_and] at h1
    exact hne (List.append_cancel_right h1)
  · intro q
    constructor
    · have := List.length_take 50 (q.map (fun c => if isKeyChar c then c else '_'))
      simp only [normalizeQuery, this]
      omega
    · intro ch hch
      have hm : ch ∈ q.map (fun c => if isKeyChar c then c else '_') :=
        List.mem_of_mem_take hch
      obtain ⟨c, _, hc⟩ := List.mem_map.mp hm
      by_cases h : isKeyChar c = true
      · exact Or.inl (by rw [← hc, if_pos h]; exact h)
      · exact Or.inr (by rw [← hc, if_neg h])

/-- Witness for C5: the period-distinctness and normalization-distinctness
clauses applied at concrete inputs. -/
theorem cacheKeys_c5_witness :
    createStatsCacheKey 1 "all".data ≠ createStatsCacheKey 1 "today".data ∧
    createSearchCacheKey 1 "ab".data 0 ≠ createSearchCacheKey 1 "cd".data 0 := by
  refine ⟨cacheKeys_c5.2.2.2.2.2.2.1 1 "all".data "today".data (by decide),
    cacheKeys_c5.2.2.2.2.2.2.2.1 1 0 "ab".data "cd".data (by decide)⟩

/-- C7: the cache-store wrappers swallow every backend failure: `get`
returns the stored value or absence and degrades to absence on a failing
backend; `set` and `delete` apply their update on a healthy backend and
are no-ops on a failing one.  All three are total functions — no backend
failure propagates to their caller. -/
theorem redisStore_c7 :
    ∀ (b : RedisBackend (List Char)) (k v : List Char) (ttl : Nat),
      (b.failGet = true → RedisService.get b k = none) ∧
      (b.failGet = false → RedisService.get b k = lookupEntry b.entries k) ∧
      (b.failSet = true → RedisService.set b k v ttl = b) ∧
      (b.failSet = false → RedisService.set b k v ttl =
        { b with entries := (k, v, ttl) :: b.entries }) ∧
      (b.failDel = true → RedisService.delete b k = b) ∧
      (b.failDel = false → RedisService.delete b k =
        { b with entries := b.entries.filter (fun e => !(e.1 == k)) }) := by
  intro b k v ttl
  refine ⟨fun h => ?_, fun h => ?_, fun h => ?_, fun h => ?_, fun h => ?_,
    fun h => ?_⟩ <;>
    simp [RedisService.get, RedisService.set, RedisService.delete,
      clientGet, clientSetEx, clientDel, h]

/-- Witness for C7: a fully failing backend at concrete inputs. -/
theorem redisStore_c7_witness :
    RedisService.get (⟨[], true, true, true⟩ : RedisBackend (List Char))
        "k".data = none ∧
    RedisService.set (⟨[], true, true, true⟩ : RedisBackend (List Char))
        "k".data "v".data 600 = ⟨[], true, true, true⟩ ∧
    RedisService.delete (⟨[], true, true, true⟩ : RedisBackend (List Char))
        "k".data = ⟨[], true, true, true⟩ := by
  obtain ⟨h1, _, h3, _, h5, _⟩ :=
    redisStore_c7 ⟨[], true, true, true⟩ "k".data "v".data 600
  exact ⟨h1 rfl, h3 rfl, h5 rfl⟩

/-- C8: a `/search` request whose query is empty (or whitespace-only)
after trimming is rejected with the usage reply — the `InvalidQuery`
rejection — without consulting the store or the cache (the outcome and the
unchanged cache are independent of the store contents), and this outcome
is distinct from a successful search with zero matches. -/
theorem emptyQuery_c8 :
    ∀ (db : Db) (b : RedisBackend StoredVal) (chatId : Int)
      (messageText : List Char),
      trimWs (List.intercalate [' '] ((splitOnSpace messageText).drop 1)) = [] →
      handleSearchCommand db b chatId messageText = (.usage, b) ∧
      SearchOutcome.usage ≠ SearchOutcome.noResults ∧
      (∀ db2 : Db, handleSearchCommand db2 b chatId messageText = (.usage, b)) := by
  intro db b chatId messageText h
  rw [List.drop_one] at h
  refine ⟨?_, by decide, fun db2 => ?_⟩ <;>
    simp [handleSearchCommand, h]

/-- C10: `getRecentMessages(userId, n)` returns the `n` most recently
created messages of the user — a permutation split of the user's messages
in which everything left out is no newer than anything selected — ordered
ascending by creation time (the selection is by descending creation time,
then reversed). -/
theorem recentMessages_c10 :
    ∀ (db : Db) (userId : Int) (n : Nat),
      (Message.getRecentMessages db userId n).length =
        min n (db.messages.filter (fun m => m.user_id == userId)).length ∧
      (∀ m ∈ Message.getRecentMessages db userId n, m.user_id = userId) ∧
      List.Sorted (fun a b : MessageData => a.created_at ≤ b.created_at)
        (Message.getRecentMessages db userId n) ∧
      ∃ rest, List.Perm (db.messages.filter (fun m => m.user_id == userId))
          (Message.getRecentMessages db userId n ++ rest) ∧
        ∀ x ∈ rest, ∀ y ∈ Message.getRecentMessages db userId n,
          x.created_at ≤ y.created_at := by
  intro db userId n
  set um := db.messages.filter (fun m => m.user_id == userId) with hum
  set srt := List.insertionSort createdDesc um with hsrt
  have hperm : List.Perm srt um := List.perm_insertionSort _ _
  have hsort : List.Sorted createdDesc srt := List.sorted_insertionSort _ _
  have hres : Message.getRecentMessages db userId n = (srt.take n).reverse := rfl
  refine ⟨?_, ?_, ?_, ?_⟩
  · rw [hres]
    simp only [List.length_reverse, List.length_take]
    rw [hperm.length_eq]
  · intro m hm
    rw [hres, List.mem_reverse] at hm
    have h1 := hperm.mem_iff.mp (List.mem_of_mem_take hm)
    have h2 := (List.mem_filter.mp h1).2
    exact beq_iff_eq.mp h2
  · rw [hres]
    have htake := List.Pairwise.sublist (List.take_sublist n srt) hsort
    have hrev : List.Pairwise
        (fun a b : MessageData => a.created_at ≤ b.created_at)
        ((srt.take n).reverse) := by
      rw [List.pairwise_reverse]
      exact htake.imp (fun h => h)
    exact hrev
  · refine ⟨srt.drop n, ?_, ?_⟩
    · have h3 : List.Perm (srt.take n ++ srt.drop n)
          ((srt.take n).reverse ++ srt.drop n) :=
        List.Perm.append_right _ (List.reverse_perm _).symm
      have h4 : List.Perm um (srt.take n ++ srt.drop n) := by
        rw [List.take_append_drop]
        exact hperm.symm
      rw [hres]
      exact h4.trans h3
    · intro x hx y hy
      rw [hres, List.mem_reverse] at hy
      have hpw : List.Pairwise createdDesc (srt.take n ++ srt.drop n) := by
        rw [List.take_append_drop]
        exact hsort
      exact (List.pairwise_append.mp hpw).2.2 y hy x hx

/-- Example store for the C10 witness. -/
def exDb10 : Db :=
  ⟨[], [⟨1, 5, 1, "a".data, 10⟩, ⟨2, 5, 1, "b".data, 20⟩,
    ⟨3, 6, 1, "c".data, 30⟩]⟩

/-- Witness for C10 at a concrete store: the single selected message is
the user's most recent one. -/
theorem recentMessages_c10_witness :
    Message.getRecentMessages exDb10 5 1 = [⟨2, 5, 1, "b".data, 20⟩] ∧
    (⟨2, 5, 1, "b".data, 20⟩ : MessageData).user_id = 5 := by
  refine ⟨by decide, (recentMessages_c10 exDb10 5 1).2.1 _ (by decide)⟩

/-- Least element of an integer list (`MIN(created_at)`). -/
theorem minInt?_spec : ∀ (l : List Int),
    (l = [] → minInt? l = none) ∧
    (∀ m, minInt? l = some m → m ∈ l ∧ ∀ x ∈ l, m ≤ x) ∧
    (l ≠ [] → ∃ m, minInt? l = some m) := by
  have haux : ∀ (l : List Int) (a : Int),
      l.foldl (fun acc t =>
        match acc with
        | none => some t
        | some m => some (min m t)) (some a) = some (l.foldl min a) := by
    intro l
    induction l with
    | nil => intro a; rfl
    | cons b t ih => intro a; simpa using ih (min a b)
  have hmem : ∀ (l : List Int) (a : Int), l.foldl min a = a ∨ l.foldl min a ∈ l := by
    intro l
    induction l with
    | nil => intro a; exact Or.inl rfl
    | cons b t ih =>
        intro a
        rcases ih (min a b) with h | h
        · rcases min_choice a b with h2 | h2
          · left
            rw [List.foldl_cons, h, h2]
          · right
            rw [List.foldl_cons, h, h2]
            simp
        · right
          rw [List.foldl_cons]
          simp [h]
  have hle : ∀ (l : List Int) (a : Int),
      l.foldl min a ≤ a ∧ ∀ x ∈ l, l.foldl min a ≤ x := by
    intro l
    induction l with
    | nil => intro a; exact ⟨le_refl a, by simp⟩
    | cons b t ih =>
        intro a
        obtain ⟨h1, h2⟩ := ih (min a b)
        refine ⟨le_trans h1 (min_le_left a b), ?_⟩
        intro x hx
        rcases List.mem_cons.mp hx with rfl | hx2
        · exact le_trans h1 (min_le_right a x)
        · exact h2 x hx2
  intro l
  refine ⟨fun h => by subst h; rfl, ?_, ?_⟩
  · intro m hm
    cases l with
    | nil => simp [minInt?] at hm
    | cons a t =>
        rw [minInt?, List.foldl_cons, haux t a] at hm
        simp only [Option.some.injEq] at hm
        subst hm
        obtain ⟨h1, h2⟩ := hle t a
        constructor
        · rcases hmem t a with h | h
          · simp [h]
          · simp [h]
        · intro x hx
          rcases List.mem_cons.mp hx with rfl | hx2
          · exact h1
          · exact h2 x hx2
  · intro h
    cases l with
    | nil => exact absurd rfl h
    | cons a t => exact ⟨t.foldl min a, by rw [minInt?, List.foldl_cons, haux t a]⟩

/-- Greatest element of an integer list (`MAX(created_at)`). -/
theorem maxInt?_spec : ∀ (l : List Int),
    (l = [] → maxInt? l = none) ∧
    (∀ m, maxInt? l = some m → m ∈ l ∧ ∀ x ∈ l, x ≤ m) ∧
    (l ≠ [] → ∃ m, maxInt? l = some m) := by
  have haux : ∀ (l : List Int) (a : Int),
      l.foldl (fun acc t =>
        match acc with
        | none => some t
        | some m => some (max m t)) (some a) = some (l.foldl max a) := by
    intro l
    induction l with
    | nil => intro a; rfl
    | cons b t ih => intro a; simpa using ih (max a b)
  have hmem : ∀ (l : List Int) (a : Int), l.foldl max a = a ∨ l.foldl max a ∈ l := by
    intro l
    induction l with
    | nil => intro a; exact Or.inl rfl
    | cons b t ih =>
        intro a
        rcases ih (max a b) with h | h
        · rcases max_choice a b with h2 | h2
          · left
            rw [List.foldl_cons, h, h2]
          · right
            rw [List.foldl_cons, h, h2]
            simp
        · right
          rw [List.foldl_cons]
          simp [h]
  have hle : ∀ (l : List Int) (a : Int),
      a ≤ l.foldl max a ∧ ∀ x ∈ l, x ≤ l.foldl max a := by
    intro l
    induction l with
    | nil => intro a; exact ⟨le_refl a, by simp⟩
    | cons b t ih =>
        intro a
        obtain ⟨h1, h2⟩ := ih (max a b)
        refine ⟨le_trans (le_max_left a b) h1, ?_⟩
        intro x hx
        rcases List.mem_cons.mp hx with rfl | hx2
        · exact le_trans (le_max_right a x) h1
        · exact h2 x hx2
  intro l
  refine ⟨fun h => by subst h; rfl, ?_, ?_⟩
  · intro m hm
    cases l with
    | nil => simp [maxInt?] at hm
    | cons a t =>
        rw [maxInt?, List.foldl_cons, haux t a] at hm
        simp only [Option.some.injEq] at hm
        subst hm
        obtain ⟨h1, h2⟩ := hle t a
        constructor
        · rcases hmem t a with h | h
          · simp [h]
          · simp [h]
        · intro x hx
          rcases List.mem_cons.mp hx with rfl | hx2
          · exact h1
          · exact h2 x hx2
  · intro h
    cases l with
    | nil => exact absurd rfl h
    | cons a t => exact ⟨t.foldl max a, by rw [maxInt?, List.foldl_cons, haux t a]⟩

/-- Reference description of a per-user stats row over a message set:
its count, and its earliest/latest timestamps when any message exists
(`(0, NULL, NULL)` otherwise). -/
def statsSpec (msgs : List MessageData) (r : UserStatsRow) : Prop :=
  r.message_count = msgs.length ∧
  (msgs = [] → r = ⟨0, none, none⟩) ∧
  (msgs ≠ [] → ∃ f l, r.first_message = some f ∧ r.last_message = some l ∧
    f ∈ msgs.map (·.created_at) ∧ l ∈ msgs.map (·.created_at) ∧
    ∀ t ∈ msgs.map (·.created_at), f ≤ t ∧ t ≤ l)

theorem get_user_stats_statsSpec (db : Db) (userId : Int)
    (daysLimit : Option Int) (now : Int) :
    statsSpec
      (db.messages.filter
        (fun m => m.user_id == userId && dayOk daysLimit now m.created_at))
      (get_user_stats db userId daysLimit now) := by
  set msgs := db.messages.filter
    (fun m => m.user_id == userId && dayOk daysLimit now m.created_at) with hm
  refine ⟨rfl, ?_, ?_⟩
  · intro h
    simp only [get_user_stats, ← hm, h]
    rfl
  · intro h
    have hne : msgs.map (·.created_at) ≠ [] := by
      simpa using h
    obtain ⟨f, hf⟩ := (minInt?_spec (msgs.map (·.created_at))).2.2 hne
    obtain ⟨l, hl⟩ := (maxInt?_spec (msgs.map (·.created_at))).2.2 hne
    obtain ⟨hfmem, hfle⟩ := (minInt?_spec _).2.1 f hf
    obtain ⟨hlmem, hlle⟩ := (maxInt?_spec _).2.1 l hl
    refine ⟨f, l, ?_, ?_, hfmem, hlmem, fun t ht => ⟨hfle t ht, hlle t ht⟩⟩
    · simp only [get_user_stats, ← hm]
      exact hf
    · simp only [get_user_stats, ← hm]
      exact hl

/-- C9 (amended): `User.getStats(userId, daysLimit)` always returns a row;
when `daysLimit` is a positive number of days the row is the count /
earliest / latest over the user's messages with
`createdAt ≥ now − daysLimit · 86400`; when `daysLimit` is absent — or
zero, which JS truthiness forwards as NULL — the row covers all the
user's messages; with no matching messages the row is `(0, NULL, NULL)`. -/
theorem userStats_c9_amended :
    ∀ (db : Db) (userId : Int) (dl : Option Int) (now : Int),
      ∃ r, User.getStats db userId dl now = some r ∧
        (∀ d, dl = some d → d ≠ 0 →
          statsSpec (db.messages.filter (fun m => m.user_id == userId &&
            decide (now - d * 86400 ≤ m.created_at))) r) ∧
        ((dl = none ∨ dl = some 0) →
          statsSpec (db.messages.filter (fun m => m.user_id == userId)) r) := by
  intro db userId dl now
  refine ⟨get_user_stats db userId (jsTruthyDays dl) now, rfl, ?_, ?_⟩
  · intro d hd hd0
    have hj : jsTruthyDays dl = some d := by
      subst hd
      simp [jsTruthyDays, hd0]
    rw [hj]
    have := get_user_stats_statsSpec db userId (some d) now
    simpa [dayOk] using this
  · intro hd
    have hj : jsTruthyDays dl = none := by
      rcases hd with rfl | rfl <;> simp [jsTruthyDays]
    rw [hj]
    have := get_user_stats_statsSpec db userId none now
    simpa [dayOk] using this

/-- Example store for C9: user 5 has one message, older than `now`. -/
def exDb9 : Db :=
  ⟨[⟨5, none, none, none, 0⟩], [⟨1, 5, 1, "hi".data, 0⟩]⟩

/-- Counterexample for C9 as stated: with `daysLimit = 0` the claim's
restriction `createdAt ≥ now − 0 days` admits no message (`now = 100`),
yet the code treats the zero limit as absent (`daysLimit || null`,
`if (daysLimit)`) and counts the user's one message. -/
theorem userStats_c9_counterexample :
    User.getStats exDb9 5 (some 0) 100 = some ⟨1, some 0, some 0⟩ ∧
    (exDb9.messages.filter (fun m => m.user_id == 5 &&
      decide (100 - 0 * 86400 ≤ m.created_at))).length = 0 := by
  decide

/-- Witness for C9 at a concrete input: a positive limit filters, the
absent limit does not. -/
theorem userStats_c9_witness :
    ∃ r, User.getStats exDb9 5 (some 7) 100 = some r ∧
      statsSpec (exDb9.messages.filter (fun m => m.user_id == 5 &&
        decide ((100 : Int) - 7 * 86400 ≤ m.created_at))) r := by
  obtain ⟨r, h1, h2, _⟩ := userStats_c9_amended exDb9 5 (some 7) 100
  exact ⟨r, h1, h2 7 rfl (by decide)⟩

/-- Example store shared by the C2/C4 search theorems. -/
def exDbSearch : Db :=
  ⟨[⟨1, none, none, none, 0⟩], [⟨1, 1, 7, "ABC".data, 0⟩]⟩

/-- C4 (amended): a syntactically invalid regex pattern makes the SQL
query itself fail (`text ~ pattern` raises `invalid regular expression`),
so `searchMessages`, `countSearchResults` and the whole search read path
return an error instead of completing; only the highlighting step in
isolation degrades to the original unmodified text when its pattern fails
to compile. -/
theorem invalidRegex_c4_amended :
    ∀ (db : Db) (b : RedisBackend StoredVal) (chatId : Int) (q : List Char)
      (limit offset page : Nat) (text : List Char),
      isRegexQuery q = true → parseRegex (innerPattern q) = none →
      (∀ k, RedisService.get b k = none) →
      Message.searchMessages db chatId q limit offset = .error .invalidRegex ∧
      Message.countSearchResults db chatId q = .error .invalidRegex ∧
      getSearchResults db b chatId q page = .error .invalidRegex ∧
      highlightText text q true = text := by
  intro db b chatId q limit offset page text hq hp hb
  have hp2 : parseRegex q.tail.dropLast = none := by
    rw [← List.drop_one]
    exact hp
  refine ⟨?_, ?_, ?_, ?_⟩
  · simp [Message.searchMessages, compileSearchCond, hq, hp]
  · simp [Message.countSearchResults, compileSearchCond, hq, hp]
  · simp [getSearchResults, hb, Message.searchMessages, compileSearchCond,
      hq, hp]
  · simp [highlightText, hp2]

/-- Counterexample for C4 as stated: searching chat 7 for `/[invalid/`
does not complete with highlighting disabled — the search read path fails
with the invalid-regex error (caught upstream as a generic failure reply),
even though `highlightText` alone tolerates the bad pattern. -/
theorem invalidRegex_c4_counterexample :
    getSearchResults exDbSearch ⟨[], false, false, false⟩ 7
        "/[invalid/".data 0 = .error .invalidRegex ∧
    Message.searchMessages exDbSearch 7 "/[invalid/".data 5 0 =
      .error .invalidRegex ∧
    parseRegex "[invalid".data = none ∧
    highlightText "hello".data "/[invalid/".data true = "hello".data := by
  refine ⟨rfl, rfl, by decide, by decide⟩

/-- Witness for C4 at the spec's own scenario query. -/
theorem invalidRegex_c4_witness :
    Message.countSearchResults exDbSearch 7 "/[invalid/".data =
      .error .invalidRegex :=
  (invalidRegex_c4_amended exDbSearch ⟨[], false, false, false⟩ 7
    "/[invalid/".data 5 0 0 "x".data (by decide) (by decide)
    (fun k => rfl)).2.1

/-- C2 (amended): queries of the form `/pattern/` (length above 2) are
regex queries whose enclosed pattern is matched — case-SENSITIVELY, via
PostgreSQL `~` — as a regular expression against message text (the
executable matcher agrees with the declarative regex semantics); every
other query is a literal query matched case-insensitively via
`ILIKE '%query%'`, in which `%`, `_` and `\` keep their LIKE wildcard
meaning, and which coincides with case-insensitive substring containment
whenever the query contains none of them. -/
theorem searchDispatch_c2_amended :
    (∀ q : List Char, isRegexQuery q = true ↔
      (q.head? = some '/' ∧ q.getLast? = some '/' ∧ 2 < q.length)) ∧
    (isRegexQuery "/abc/".data = true ∧ innerPattern "/abc/".data = "abc".data ∧
     isRegexQuery "abc".data = false ∧ isRegexQuery "/abc".data = false) ∧
    (∀ (db : Db) (chatId : Int) (q : List Char) (r : Regex),
      isRegexQuery q = true → parseRegex (innerPattern q) = some r →
      Message.countSearchResults db chatId q =
        .ok ((db.messages.filter (fun m => m.chat_id == chatId &&
          existsMatch false r m.text)).length) ∧
      (∀ t, existsMatch false r t = true ↔
        ∃ m, m <:+: t ∧ RMatch false r m)) ∧
    (∀ (db : Db) (chatId : Int) (q : List Char),
      isRegexQuery q = false →
      Message.countSearchResults db chatId q =
        .ok ((db.messages.filter (fun m => m.chat_id == chatId &&
          likeMatch true ('%' :: (q ++ ['%'])) m.text)).length)) ∧
    (∀ (q t : List Char), (∀ c ∈ q, c ≠ '%' ∧ c ≠ '_' ∧ c ≠ '\\') →
      (likeMatch true ('%' :: (q ++ ['%'])) t = true ↔
        lstr q <:+: lstr t)) := by
  refine ⟨?_, ⟨by decide, by decide, by decide, by decide⟩, ?_, ?_, ?_⟩
  · intro q
    simp [isRegexQuery, and_assoc]
  · intro db chatId q r hq hp
    constructor
    · simp [Message.countSearchResults, compileSearchCond, hq, hp]
    · intro t
      exact existsMatch_iff
  · intro db chatId q hq
    simp [Message.countSearchResults, compileSearchCond, hq]
  · intro q t hq
    exact ilike_contains_iff hq

/-- Counterexample for C2 as stated: the claim's case-insensitive reading
of regex queries matches the message `ABC` with `/abc/` (second conjunct),
but the code's count over that store is 0 — `text ~ 'abc'` is
case-sensitive. -/
theorem searchDispatch_c2_counterexample :
    Message.countSearchResults exDbSearch 7 "/abc/".data = .ok 0 ∧
    (parseRegex (innerPattern "/abc/".data)).map
      (fun r => existsMatch true r "ABC".data) = some true := by
  refine ⟨rfl, by decide⟩

/-- Witness for C2: the regex and literal clauses applied at concrete
inputs. -/
theorem searchDispatch_c2_witness :
    Message.countSearchResults exDbSearch 7 "abc".data =
      .ok ((exDbSearch.messages.filter (fun m => m.chat_id == 7 &&
        likeMatch true ('%' :: ("abc".data ++ ['%'])) m.text)).length) ∧
    (likeMatch true ('%' :: ("abc".data ++ ['%'])) "xxABCyy".data = true ↔
      lstr "abc".data <:+: lstr "xxABCyy".data) := by
  refine ⟨searchDispatch_c2_amended.2.2.2.1 exDbSearch 7 "abc".data (by decide),
    searchDispatch_c2_amended.2.2.2.2 "abc".data "xxABCyy".data (by decide)⟩

/-- C6 (amended): for a literal query, each whitespace-delimited term is
escaped so that pattern-control characters match literally (the escaped
pattern compiles to exactly the literal-word regex), and the terms are
applied as successive passes, each wrapping the leftmost non-overlapping
case-insensitive occurrences of the term in the current — already
partially highlighted — text in `**` marker pairs; a text containing no
occurrence of any term is returned unchanged. -/
theorem highlightLiteral_c6_amended :
    ∀ (t q : List Char),
      highlightText t q false =
        (splitNonWs q).foldl (fun acc w => wrapOccs w acc) t ∧
      ((∀ w ∈ splitNonWs q, ¬ (lstr w <:+: lstr t)) →
        highlightText t q false = t) ∧
      (∀ (w s : List Char),
        parseRegex ('(' :: (escapeRegExp w ++ [')'])) = some (wordRegexOf w) ∧
        (RMatch true (wordRegexOf w) s ↔ lstr s = lstr w)) := by
  intro t q
  exact ⟨highlightText_literal t q, highlightText_literal_id t q,
    fun w s => ⟨parseRegex_escape w, RMatch_wordRegex⟩⟩

/-- Counterexample for C6 as stated: with text `aba` and query `ab ba`,
the term `ba` occurs in the text case-insensitively, yet the output
`**ab**a` nowhere wraps an occurrence of `ba` — the first pass consumed
the shared `b`.  Likewise overlapping occurrences (`aa` in `aaa`) are not
all wrapped. -/
theorem highlightLiteral_c6_counterexample :
    highlightText "aba".data "ab ba".data false = "**ab**a".data ∧
    "ba".data ∈ splitNonWs "ab ba".data ∧
    (lstr "ba".data <:+: lstr "aba".data) ∧
    ¬ ("**ba**".data <:+: "**ab**a".data) ∧
    highlightText "aaa".data "aa".data false = "**aa**a".data := by
  refine ⟨by decide, by decide, by decide, by decide, by decide⟩

/-- Witness for C6: a text containing no occurrence of the query terms is
returned unchanged. -/
theorem highlightLiteral_c6_witness :
    highlightText "xyz".data "ab".data false = "xyz".data :=
  (highlightLiteral_c6_amended "xyz".data "ab".data).2.1 (by decide)

theorem slices_flatten {α : Type} : ∀ (n : Nat) (l : List α), l.length ≤ n →
    ((List.range ((l.length + 4) / 5)).map
      (fun i => (l.drop (i * 5)).take 5)).flatten = l := by
  intro n
  induction n with
  | zero =>
      intro l hl
      have h0 : l = [] := List.length_eq_zero.mp (by omega)
      subst h0
      simp
  | succ k ih =>
      intro l hl
      by_cases hnil : l = []
      · subst hnil; simp
      · have hpos : 1 ≤ l.length := List.length_pos.mpr hnil
        have hq : (l.length + 4) / 5 = ((l.drop 5).length + 4) / 5 + 1 := by
          simp only [List.length_drop]
          omega
        rw [hq, List.range_succ_eq_map]
        simp only [List.map_cons, List.flatten_cons, List.map_map]
        have hslice : (List.range (((l.drop 5).length + 4) / 5)).map
            ((fun i => (l.drop (i * 5)).take 5) ∘ (· + 1)) =
            (List.range (((l.drop 5).length + 4) / 5)).map
              (fun i => ((l.drop 5).drop (i * 5)).take 5) := by
          apply List.map_congr_left
          intro i _
          simp only [Function.comp]
          rw [List.drop_drop]
          have harith : (i + 1) * 5 = 5 + i * 5 := by ring
          rw [harith]
        rw [hslice, ih (l.drop 5) (by simp only [List.length_drop]; omega)]
        simp only [Nat.zero_mul, List.drop_zero]
        exact List.take_append_drop 5 l

/-- Under the schema's foreign key, the `JOIN users` of the search query
drops no message: the joined match count equals the raw filtered count
(which is what `countSearchResults` computes, without a join). -/
theorem joined_length (db : Db) (chatId : Int) (pred : List Char → Bool)
    (hfk : fkHolds db) :
    (joinedMatches db chatId pred).length =
      (db.messages.filter (fun m => m.chat_id == chatId && pred m.text)).length := by
  have haux : ∀ ms : List MessageData,
      (∀ m ∈ ms, ∃ u ∈ db.users, u.id = m.user_id) →
      (ms.filterMap (fun m =>
        if m.chat_id == chatId && pred m.text then
          (db.users.find? (fun u => u.id == m.user_id)).map (fun u =>
            (⟨m.id, m.user_id, u.username, u.first_name, u.last_name,
              m.text, m.created_at⟩ : SearchRowB))
        else none)).length =
      (ms.filter (fun m => m.chat_id == chatId && pred m.text)).length := by
    intro ms
    induction ms with
    | nil => intro _; rfl
    | cons m t ih =>
        intro h
        have hm := h m (by simp)
        have ht := ih (fun x hx => h x (by simp [hx]))
        by_cases hc : (m.chat_id == chatId && pred m.text) = true
        · obtain ⟨u, hu, hid⟩ := hm
          have hfind : (db.users.find? (fun v => v.id == m.user_id)).isSome := by
            rw [List.find?_isSome]
            exact ⟨u, hu, by simp [hid]⟩
          obtain ⟨v, hv⟩ := Option.isSome_iff_exists.mp hfind
          have hc2 : m.chat_id = chatId ∧ pred m.text = true := by simpa using hc
          simp [List.filterMap_cons, List.filter_cons, hc, hc2, hv]
          simpa using ht
        · have hc2 : ¬ (m.chat_id = chatId ∧ pred m.text = true) := by
            simpa using hc
          simp [List.filterMap_cons, List.filter_cons, hc, hc2]
          simpa using ht
  exact haux db.messages hfk

/-- C1: on the computing path (cache miss) with a valid query and the
schema's foreign key, every search page is the slice `[p*5, p*5+5)` of
the full match set ordered by descending creation time; `totalResults` is
the full match count, `totalPages = ceil(totalResults/5)` accompanies
every page, and concatenating the slices of pages `0..totalPages-1`
reproduces the full ranked match set with no duplicates or gaps. -/
theorem searchPagination_c1 :
    ∀ (db : Db) (b : RedisBackend StoredVal) (chatId : Int) (q : List Char),
      (∀ k, RedisService.get b k = none) → fkHolds db →
      (compileSearchCond q).isSome = true →
      List.Sorted (fun x y : SearchRow => y.created_at ≤ x.created_at)
        (fullMatches db chatId q) ∧
      ((List.range (((fullMatches db chatId q).length + 4) / 5)).map
        (fun i => ((fullMatches db chatId q).drop (i * 5)).take 5)).flatten =
        fullMatches db chatId q ∧
      ∀ p : Nat, ∃ sr b2,
        getSearchResults db b chatId q p = .ok (sr, b2) ∧
        sr.results = ((fullMatches db chatId q).drop (p * 5)).take 5 ∧
        sr.totalResults = (fullMatches db chatId q).length ∧
        sr.totalPages = ((fullMatches db chatId q).length + 4) / 5 ∧
        sr.page = p ∧ sr.cached = false ∧ sr.query = q := by
  intro db b chatId q hb hfk hc
  obtain ⟨pred, hpred⟩ := Option.isSome_iff_exists.mp hc
  have hfull : fullMatches db chatId q =
      (sortedMatches db chatId pred).map (addHighlight q (isRegexQuery q)) := by
    simp only [fullMatches, hpred]
  have hlen : (fullMatches db chatId q).length =
      (db.messages.filter (fun m => m.chat_id == chatId && pred m.text)).length := by
    rw [hfull, List.length_map]
    unfold sortedMatches
    rw [(List.perm_insertionSort rowDesc _).length_eq]
    exact joined_length db chatId pred hfk
  have hsm : ∀ p : Nat, Message.searchMessages db chatId q 5 (p * 5) =
      .ok (((fullMatches db chatId q).drop (p * 5)).take 5) := by
    intro p
    simp only [Message.searchMessages, hpred, hfull]
    rw [List.map_take, List.map_drop]
  have hct : Message.countSearchResults db chatId q =
      .ok ((fullMatches db chatId q).length) := by
    simp only [Message.countSearchResults, hpred]
    rw [hlen]
  refine ⟨?_, ?_, ?_⟩
  · rw [hfull]
    have hpw : List.Pairwise (fun x y : SearchRow => y.created_at ≤ x.created_at)
        (List.map (addHighlight q (isRegexQuery q)) (sortedMatches db chatId pred)) := by
      rw [List.pairwise_map]
      exact (List.sorted_insertionSort rowDesc _).imp (fun h => h)
    exact hpw
  · exact slices_flatten (fullMatches db chatId q).length _ (le_refl _)
  · intro p
    have hmain : getSearchResults db b chatId q p =
        .ok (⟨q, (fullMatches db chatId q).length,
          ((fullMatches db chatId q).drop (p * 5)).take 5, p,
          ((fullMatches db chatId q).length + 5 - 1) / 5, false⟩,
          RedisService.set b (createSearchCacheKey chatId q p)
            (.search ⟨q, (fullMatches db chatId q).length,
              ((fullMatches db chatId q).drop (p * 5)).take 5, p,
              ((fullMatches db chatId q).length + 5 - 1) / 5, false⟩) 600) := by
      simp only [getSearchResults, hb, hsm p, hct]
    exact ⟨_, _, hmain, rfl, rfl, rfl, rfl, rfl, rfl⟩

/-- Example store for the C1 witness: three messages in chat 7, two of
which contain `hello`. -/
def exDb1 : Db :=
  ⟨[⟨1, none, none, none, 0⟩, ⟨2, none, none, none, 0⟩],
   [⟨1, 1, 7, "hello world".data, 1⟩, ⟨2, 1, 7, "Hello again".data, 2⟩,
    ⟨3, 2, 7, "bye".data, 3⟩]⟩

/-- Witness for C1 at a concrete store, query and page. -/
theorem searchPagination_c1_witness :
    ∃ sr b2, getSearchResults exDb1 ⟨[], false, false, false⟩ 7
        "hello".data 0 = .ok (sr, b2) ∧
      sr.results = ((fullMatches exDb1 7 "hello".data).drop (0 * 5)).take 5 ∧
      sr.totalResults = (fullMatches exDb1 7 "hello".data).length ∧
      sr.totalPages = ((fullMatches exDb1 7 "hello".data).length + 4) / 5 ∧
      sr.page = 0 ∧ sr.cached = false ∧ sr.query = "hello".data :=
  (searchPagination_c1 exDb1 ⟨[], false, false, false⟩ 7 "hello".data
    (fun k => rfl) (by decide) (by decide)).2.2 0

/-- Witness for C8: the command message `/search   ` (whitespace-only
query). -/
theorem emptyQuery_c8_witness :
    handleSearchCommand ⟨[], []⟩ ⟨[], false, false, false⟩ 1
        "/search   ".data = (.usage, ⟨[], false, false, false⟩) :=
  (emptyQuery_c8 ⟨[], []⟩ ⟨[], false, false, false⟩ 1 "/search   ".data
    (by decide)).1

/-- C3 (amended): every read-through path is cache-aside.  A hit returns
the deserialized entry immediately, with no recomputation and the cache
untouched; the stats, per-user-stats and search paths mark a hit
`cached = true`, but the users-list path attaches no `cached` flag at
all.  A miss computes the result from the message store, returns it with
`cached = false` (again except the users-list path, which attaches no
flag), and stores it under the derived key with TTL 1200 seconds for
chat-wide stats and 600 seconds for per-user stats, user lists and search
pages.  The store step never fails the response: the returned data is the
same whether or not the backend rejects the write. -/
theorem cacheAside_c3_amended :
    (∀ (db : Db) (now : Int) (b : RedisBackend StoredVal) (chatId : Int)
        (period : StatsPeriod) (d : StatsData),
      RedisService.get b (createStatsCacheKey chatId (periodStr period)) =
          some (.stats d) →
      getStatsData db now b chatId period = ({ d with cached := true }, b)) ∧
    (∀ (db : Db) (now : Int) (b : RedisBackend StoredVal) (chatId : Int)
        (period : StatsPeriod),
      RedisService.get b (createStatsCacheKey chatId (periodStr period)) =
          none →
      getStatsData db now b chatId period =
        (⟨period, Message.getTotalCount db chatId (getDaysLimit period) now,
          Message.getTopUsers db chatId 10 (getDaysLimit period) now, false⟩,
         RedisService.set b (createStatsCacheKey chatId (periodStr period))
           (.stats ⟨period,
             Message.getTotalCount db chatId (getDaysLimit period) now,
             Message.getTopUsers db chatId 10 (getDaysLimit period) now,
             false⟩) 1200)) ∧
    (∀ (db : Db) (now : Int) (b : RedisBackend StoredVal)
        (chatId userId : Int) (period : StatsPeriod) (d : UserStatsData),
      RedisService.get b
          (createUserStatsCacheKey chatId userId (periodStr period)) =
          some (.userStats d) →
      getUserStatsData db now b chatId userId period =
        .ok ({ d with cached := true }, b)) ∧
    (∀ (db : Db) (now : Int) (b : RedisBackend StoredVal)
        (chatId userId : Int) (period : StatsPeriod) (user : UserData),
      RedisService.get b
          (createUserStatsCacheKey chatId userId (periodStr period)) =
          none →
      User.findById db userId = some user →
      getUserStatsData db now b chatId userId period =
        .ok (⟨user, User.getStats db userId (getDaysLimit period) now,
              Message.getRecentMessages db userId 5, false⟩,
             RedisService.set b
               (createUserStatsCacheKey chatId userId (periodStr period))
               (.userStats ⟨user,
                 User.getStats db userId (getDaysLimit period) now,
                 Message.getRecentMessages db userId 5, false⟩) 600)) ∧
    (∀ (db : Db) (now : Int) (b : RedisBackend StoredVal) (chatId : Int)
        (rows : List UserStatRow),
      RedisService.get b (createUsersListCacheKey chatId) =
          some (.usersList rows) →
      getUsersListData db now b chatId = (⟨rows, none⟩, b)) ∧
    (∀ (db : Db) (now : Int) (b : RedisBackend StoredVal) (chatId : Int),
      RedisService.get b (createUsersListCacheKey chatId) = none →
      getUsersListData db now b chatId =
        (⟨Message.getUserStats db chatId none now, none⟩,
         RedisService.set b (createUsersListCacheKey chatId)
           (.usersList (Message.getUserStats db chatId none now)) 600)) ∧
    (∀ (db : Db) (b : RedisBackend StoredVal) (chatId : Int)
        (q : List Char) (page : Nat) (d : SearchResultData),
      RedisService.get b (createSearchCacheKey chatId q page) =
          some (.search d) →
      getSearchResults db b chatId q page = .ok ({ d with cached := true }, b)) ∧
    (∀ (db : Db) (b : RedisBackend StoredVal) (chatId : Int)
        (q : List Char) (page : Nat) (results : List SearchRow) (total : Nat),
      RedisService.get b (createSearchCacheKey chatId q page) = none →
      Message.searchMessages db chatId q 5 (page * 5) = .ok results →
      Message.countSearchResults db chatId q = .ok total →
      getSearchResults db b chatId q page =
        .ok (⟨q, total, results, page, (total + 5 - 1) / 5, false⟩,
             RedisService.set b (createSearchCacheKey chatId q page)
               (.search ⟨q, total, results, page, (total + 5 - 1) / 5,
                 false⟩) 600)) ∧
    (∀ (db : Db) (now : Int) (b : RedisBackend StoredVal) (chatId : Int)
        (period : StatsPeriod) (t : Bool),
      (getStatsData db now { b with failSet := t } chatId period).1 =
        (getStatsData db now b chatId period).1) ∧
    (∀ (db : Db) (b : RedisBackend StoredVal) (chatId : Int)
        (q : List Char) (page : Nat) (t : Bool),
      (getSearchResults db { b with failSet := t } chatId q page).map
          Prod.fst =
        (getSearchResults db b chatId q page).map Prod.fst) := by
  refine ⟨?_, ?_, ?_, ?_, ?_, ?_, ?_, ?_, ?_, ?_⟩
  · intro db now b chatId period d h
    simp only [getStatsData]
    rw [h]
  · intro db now b chatId period h
    simp only [getStatsData]
    rw [h]
  · intro db now b chatId userId period d h
    simp only [getUserStatsData]
    rw [h]
  · intro db now b chatId userId period user h hu
    simp only [getUserStatsData]
    rw [h, hu]
  · intro db now b chatId rows h
    simp only [getUsersListData]
    rw [h]
  · intro db now b chatId h
    simp only [getUsersListData]
    rw [h]
  · intro db b chatId q page d h
    simp only [getSearchResults]
    rw [h]
  · intro db b chatId q page results total h hs hc
    simp only [getSearchResults]
    rw [h, hs, hc]
  · intro db now b chatId period t
    have hg : RedisService.get { b with failSet := t }
        (createStatsCacheKey chatId (periodStr period)) =
        RedisService.get b (createStatsCacheKey chatId (periodStr period)) :=
      rfl
    simp only [getStatsData, hg]
    cases RedisService.get b (createStatsCacheKey chatId (periodStr period)) with
    | none => rfl
    | some v => cases v <;> rfl
  · intro db b chatId q page t
    have hg : RedisService.get { b with failSet := t }
        (createSearchCacheKey chatId q page) =
        RedisService.get b (createSearchCacheKey chatId q page) := rfl
    simp only [getSearchResults, hg]
    cases RedisService.get b (createSearchCacheKey chatId q page) with
    | none =>
        cases Message.searchMessages db chatId q 5 (page * 5) <;>
          first
            | rfl
            | (cases Message.countSearchResults db chatId q <;> rfl)
    | some v =>
        cases v <;>
          first
            | rfl
            | (cases Message.searchMessages db chatId q 5 (page * 5) <;>
                first
                  | rfl
                  | (cases Message.countSearchResults db chatId q <;> rfl))

/-- A concrete backend holding a cached users-list entry for chat 1 and a
cached stats entry for chat 1, period `week`. -/
def exBC3 : RedisBackend StoredVal :=
  ⟨[(createUsersListCacheKey 1, .usersList [⟨5, none, none, none, 3⟩], 600),
    (createStatsCacheKey 1 (periodStr .week), .stats ⟨.week, 2, [], false⟩,
     1200)],
   false, false, false⟩

/-- Counterexample to C3 as stated: on a users-list cache hit the
returned value carries no `cached = true` marker — the parsed rows are
returned bare, the `cached` property is absent (`none`). -/
theorem cacheAside_c3_counterexample :
    RedisService.get exBC3 (createUsersListCacheKey 1) =
      some (.usersList [⟨5, none, none, none, 3⟩]) ∧
    (getUsersListData ⟨[], []⟩ 0 exBC3 1).1.rows =
      [⟨5, none, none, none, 3⟩] ∧
    (getUsersListData ⟨[], []⟩ 0 exBC3 1).1.cached ≠ some true := by
  refine ⟨by decide, by decide, by decide⟩

/-- Witness for C3 (amended): a stats cache hit, a users-list cache hit,
and a search cache miss, at concrete inputs. -/
theorem cacheAside_c3_witness :
    getStatsData ⟨[], []⟩ 0 exBC3 1 .week = (⟨.week, 2, [], true⟩, exBC3) ∧
    getUsersListData ⟨[], []⟩ 0 exBC3 1 =
      (⟨[⟨5, none, none, none, 3⟩], none⟩, exBC3) ∧
    getSearchResults ⟨[], []⟩ exBC3 2 "hi".data 0 =
      .ok (⟨"hi".data, 0, [], 0, 0, false⟩,
        RedisService.set exBC3 (createSearchCacheKey 2 "hi".data 0)
          (.search ⟨"hi".data, 0, [], 0, 0, false⟩) 600) :=
  ⟨cacheAside_c3_amended.1 ⟨[], []⟩ 0 exBC3 1 .week ⟨.week, 2, [], false⟩
     (by decide),
   cacheAside_c3_amended.2.2.2.2.1 ⟨[], []⟩ 0 exBC3 1
     [⟨5, none, none, none, 3⟩] (by decide),
   cacheAside_c3_amended.2.2.2.2.2.2.2.1 ⟨[], []⟩ exBC3 2 "hi".data 0 [] 0
     (by decide) rfl rfl⟩

end ChatBot
